import Mathlib

/-!
Verification development for the licence-gallery collector scripts.

The repository is a family of near-duplicate JavaScript collector scripts
(Bing image search / Bing RSS / Playwright variants).  This file gives a
shallow embedding of the pure data-pipeline parts of those scripts
(candidate classification, parsing, scoring, deduplication, capping) and
proves properties of them.

Conventions used throughout:
* JavaScript strings are Lean `String`s (ASCII case folding, as used by
  every string the scripts manipulate).
* `null`-able strings are `Option String`; JavaScript truthiness of a
  string (`null`/`""` falsy) is `jsTruthy`.
* A JavaScript `Map` is an insertion-ordered association list
  `List (String × β)`: `Map.get` is `List.lookup`, `Map.set` is `mapSet`
  (replacing in place keeps the original insertion position, as the JS
  `Map` does), `Array.from(map.values())` is `List.map Prod.snd`.
* Network and filesystem effects are oracles passed as arguments; code
  paths that throw are embedded with `Except`.
-/

namespace Js

/-- JS `String.prototype.includes` on the underlying character lists:
`jsIncludesL hay pat` is true iff `pat` occurs contiguously in `hay`. -/
def jsIncludesL : List Char → List Char → Bool
  | [], pat => pat.isEmpty
  | c :: rest, pat => pat.isPrefixOf (c :: rest) || jsIncludesL rest pat

/-- JS `s.includes(sub)`. -/
def jsIncludes (s sub : String) : Bool :=
  jsIncludesL s.data sub.data

/-- JS `s.toLowerCase()` (ASCII folding on the character list). -/
def lowerS (s : String) : String :=
  String.mk (s.data.map Char.toLower)

/-- JS `s.endsWith(suffix)`. -/
def endsWithS (s suffix : String) : Bool :=
  suffix.data.isSuffixOf s.data

/-- JS `s.trim()`. -/
def trimS (s : String) : String :=
  String.mk (((s.data.dropWhile Char.isWhitespace).reverse.dropWhile
    Char.isWhitespace).reverse)

/-- Fuelled core of JS `s.replaceAll(pat, rep)`: scan left to right, replace
each non-overlapping occurrence.  Every pattern these scripts replace is
nonempty, so each step consumes at least one character and fuel
`length + 1` always suffices; the fuel keeps the recursion structural. -/
def replaceAllF (pat rep : List Char) : Nat → List Char → List Char
  | 0, l => l
  | _ + 1, [] => []
  | fuel + 1, c :: rest =>
    if pat.isPrefixOf (c :: rest) then
      rep ++ replaceAllF pat rep fuel ((c :: rest).drop pat.length)
    else c :: replaceAllF pat rep fuel rest

/-- JS `s.replaceAll(pat, rep)` (see `replaceAllF`). -/
def jsReplaceAll (s pat rep : String) : String :=
  String.mk (replaceAllF pat.data rep.data (s.data.length + 1) s.data)

/-- JS truthiness of a nullable string: `null` and `""` are falsy. -/
def jsTruthy : Option String → Bool
  | none => false
  | some s => !(s == "")

/-- First truthy value of a list of nullable strings (`none` when all are
falsy). -/
def firstTruthy : List (Option String) → Option String
  | [] => none
  | o :: rest => if jsTruthy o then o else firstTruthy rest

/-- JS `a || b` on nullable strings (used for `obj.murl || obj.imgurl || ...`). -/
def jsOr (a b : Option String) : Option String :=
  if jsTruthy a then a else b

/-- Model of the WHATWG `URL` record as far as these scripts use it:
scheme, host, pathname, search and fragment of a plain absolute URL. -/
structure JsURL where
  scheme : String
  host : String
  pathname : String
  search : String
  fragment : String
deriving Repr, DecidableEq

/-- Serialisation of a `JsURL` (the JS `url.toString()`). -/
def JsURL.serialize (u : JsURL) : String :=
  u.scheme ++ "://" ++ u.host ++ u.pathname ++ u.search ++ u.fragment

/-- Modelled from the spec: the WHATWG `new URL(s)` builtin (not part of the
repository), restricted to the plain absolute `scheme://host[/path][?search][#frag]`
URLs these collectors handle.  Scheme and host are lower-cased, an empty path
serialises as `/`; a string not of this shape models the thrown `TypeError`
as `none`. -/
def parseURL (s : String) : Option JsURL :=
  let cs := s.data
  let scheme := cs.takeWhile (fun c => c.isAlpha)
  let rest := cs.drop scheme.length
  if scheme.isEmpty then none
  else if !(List.isPrefixOf [':', '/', '/'] rest) then none
  else
    let rest2 := rest.drop 3
    let host := rest2.takeWhile (fun c => !(c == '/' || c == '?' || c == '#'))
    if host.isEmpty then none
    else
      let rest3 := rest2.drop host.length
      let path := rest3.takeWhile (fun c => !(c == '?' || c == '#'))
      let rest4 := rest3.drop path.length
      let search := rest4.takeWhile (fun c => !(c == '#'))
      let frag := rest4.drop search.length
      some
        { scheme := String.mk (scheme.map Char.toLower)
          host := String.mk (host.map Char.toLower)
          pathname := if path.isEmpty then "/" else String.mk path
          search := String.mk search
          fragment := String.mk frag }

/-- Hostname of a URL string, `none` when `new URL` would throw. -/
def hostOf (s : String) : Option String :=
  (parseURL s).map JsURL.host

/-- JS `Map.prototype.set`: replace the value at the first occurrence of the
key (keeping its insertion position), else append a fresh entry at the end. -/
def mapSet {β : Type} (m : List (String × β)) (k : String) (v : β) : List (String × β) :=
  match m with
  | [] => [(k, v)]
  | (k0, v0) :: rest => if k0 == k then (k, v) :: rest else (k0, v0) :: mapSet rest k v

theorem beq_false_of_ne {a b : String} (h : a ≠ b) : (a == b) = false := by
  simp [h]

theorem lookup_mapSet_self {β : Type} (m : List (String × β)) (k : String) (v : β) :
    List.lookup k (mapSet m k v) = some v := by
  induction m with
  | nil => simp [mapSet, List.lookup]
  | cons e rest ih =>
    obtain ⟨k0, v0⟩ := e
    by_cases h : k0 = k
    · simp [mapSet, h, List.lookup]
    · have h2 : (k0 == k) = false := beq_false_of_ne h
      have h3 : (k == k0) = false := beq_false_of_ne (Ne.symm h)
      simp [mapSet, h2, List.lookup, h3, ih]

theorem lookup_mapSet_other {β : Type} (m : List (String × β)) (k k2 : String) (v : β)
    (hne : k2 ≠ k) : List.lookup k2 (mapSet m k v) = List.lookup k2 m := by
  have hb : (k2 == k) = false := beq_false_of_ne hne
  induction m with
  | nil => simp [mapSet, List.lookup, hb]
  | cons e rest ih =>
    obtain ⟨k0, v0⟩ := e
    by_cases h : k0 = k
    · subst h
      simp [mapSet, List.lookup, hb]
    · have h2 : (k0 == k) = false := beq_false_of_ne h
      simp [mapSet, h2, List.lookup, ih]

theorem mapSet_of_lookup_self {β : Type} (m : List (String × β)) (k : String) (v : β)
    (h : List.lookup k m = some v) : mapSet m k v = m := by
  induction m with
  | nil => simp [List.lookup] at h
  | cons e rest ih =>
    obtain ⟨k0, v0⟩ := e
    by_cases hk : k = k0
    · subst hk
      simp [List.lookup] at h
      simp [mapSet, h]
    · have h2 : (k == k0) = false := beq_false_of_ne hk
      have h3 : (k0 == k) = false := beq_false_of_ne (Ne.symm hk)
      simp [List.lookup, h2] at h
      simp [mapSet, h3, ih h]

theorem mapSet_append_of_not_mem {β : Type} (m : List (String × β)) (k : String) (v : β)
    (h : k ∉ m.map Prod.fst) : mapSet m k v = m ++ [(k, v)] := by
  induction m with
  | nil => simp [mapSet]
  | cons e rest ih =>
    obtain ⟨k0, v0⟩ := e
    simp only [List.map_cons, List.mem_cons] at h
    push_neg at h
    have h2 : (k0 == k) = false := beq_false_of_ne (Ne.symm h.1)
    simp [mapSet, h2, ih h.2]

theorem keys_mapSet {β : Type} (m : List (String × β)) (k : String) (v : β) :
    (mapSet m k v).map Prod.fst = if k ∈ m.map Prod.fst then m.map Prod.fst
      else m.map Prod.fst ++ [k] := by
  induction m with
  | nil => simp [mapSet]
  | cons e rest ih =>
    obtain ⟨k0, v0⟩ := e
    by_cases h : k0 = k
    · subst h
      simp [mapSet]
    · have h2 : (k0 == k) = false := beq_false_of_ne h
      have h3 : k = k0 ↔ False := by simp [Ne.symm h]
      by_cases hmem : k ∈ rest.map Prod.fst
      · simp [mapSet, h2, ih, hmem, h3]
      · simp [mapSet, h2, ih, hmem, h3]

theorem mem_mapSet {β : Type} (m : List (String × β)) (k : String) (v : β) (e : String × β)
    (h : e ∈ mapSet m k v) : e ∈ m ∨ e = (k, v) := by
  induction m with
  | nil => simp [mapSet] at h; simp [h]
  | cons e0 rest ih =>
    obtain ⟨k0, v0⟩ := e0
    by_cases hk : k0 = k
    · simp [mapSet, hk] at h
      rcases h with h | h
      · right; simp [h]
      · left; simp [h]
    · have h2 : (k0 == k) = false := beq_false_of_ne hk
      simp [mapSet, h2] at h
      rcases h with h | h
      · left; simp [h]
      · rcases ih h with h3 | h3
        · left; simp [h3]
        · right; exact h3

end Js

/-- A collector candidate / output item: the one record shape
`{ retailer, product_url, image_url }` every script in the repository uses. -/
structure Item where
  retailer : String
  product_url : String
  image_url : String
deriving Repr, DecidableEq

namespace Fold

/-- One step of a JS `Map`-based dedupe loop: when the guard `G` accepts the
item, combine it with the current entry at key `K it` and store the result
(`map.set`); otherwise leave the map unchanged.  Every dedupe in the
repository is an instance of this shape. -/
def assocUpd {β : Type} (G : Item → Bool) (K : Item → String) (comb : Option β → Item → β)
    (m : List (String × β)) (it : Item) : List (String × β) :=
  if G it then Js.mapSet m (K it) (comb (List.lookup (K it) m) it) else m

theorem lookup_mem {β : Type} {m : List (String × β)} {k : String} {v : β}
    (h : List.lookup k m = some v) : (k, v) ∈ m := by
  induction m with
  | nil => simp [List.lookup] at h
  | cons e rest ih =>
    obtain ⟨k0, v0⟩ := e
    by_cases hk : k = k0
    · subst hk
      simp [List.lookup] at h
      simp [h]
    · have h2 : (k == k0) = false := Js.beq_false_of_ne hk
      simp [List.lookup, h2] at h
      simp [ih h]

theorem lookup_eq_none_of_not_mem_keys {β : Type} {m : List (String × β)} {k : String}
    (h : k ∉ m.map Prod.fst) : List.lookup k m = none := by
  induction m with
  | nil => simp [List.lookup]
  | cons e rest ih =>
    obtain ⟨k0, v0⟩ := e
    simp only [List.map_cons, List.mem_cons] at h
    push_neg at h
    have h2 : (k == k0) = false := Js.beq_false_of_ne h.1
    simp [List.lookup, h2, ih h.2]

/-- The entry a key holds after running a dedupe fold is the fold of `comb`
over exactly the guard-passing items of the input whose key matches. -/
theorem lookup_foldl_assocUpd {β : Type} (G : Item → Bool) (K : Item → String)
    (comb : Option β → Item → β) (l : List Item) (m : List (String × β)) (k : String) :
    List.lookup k (l.foldl (assocUpd G K comb) m)
      = (l.filter (fun it => G it && (K it == k))).foldl
          (fun acc it => some (comb acc it)) (List.lookup k m) := by
  induction l generalizing m with
  | nil => simp
  | cons it rest ih =>
    by_cases hg : G it
    · by_cases hk : K it = k
      · have hstep : List.lookup k (assocUpd G K comb m it)
            = some (comb (List.lookup k m) it) := by
          simp only [assocUpd, hg, if_true, hk]
          exact Js.lookup_mapSet_self m k _
        have hbeq : (K it == k) = true := by simp [hk]
        simp only [List.foldl_cons, List.filter_cons, hg, hbeq, Bool.and_self,
          if_true, ih, hstep]
      · have hstep : List.lookup k (assocUpd G K comb m it) = List.lookup k m := by
          simp only [assocUpd, hg, if_true]
          exact Js.lookup_mapSet_other m (K it) k _ (Ne.symm hk)
        have hbeq : (K it == k) = false := Js.beq_false_of_ne hk
        simp only [List.foldl_cons, List.filter_cons, hg, hbeq, Bool.and_false,
          Bool.true_and, if_neg Bool.false_ne_true, ih, hstep]
    · have hg2 : G it = false := by simpa using hg
      have hstep : assocUpd G K comb m it = m := by simp [assocUpd, hg2]
      simp [List.filter_cons, hg2, hstep, ih]

/-- Map invariant for a dedupe fold: keys are distinct and every entry
satisfies the per-entry property `P`. -/
def MInv {β : Type} (P : String → β → Prop) (m : List (String × β)) : Prop :=
  (m.map Prod.fst).Nodup ∧ ∀ e ∈ m, P e.1 e.2

theorem minv_preserved {β : Type} (G : Item → Bool) (K : Item → String)
    (comb : Option β → Item → β) (P : String → β → Prop)
    (hcomb : ∀ it old, G it = true → (∀ v, old = some v → P (K it) v)
      → P (K it) (comb old it))
    (l : List Item) (m : List (String × β)) (hm : MInv P m) :
    MInv P (l.foldl (assocUpd G K comb) m) := by
  induction l generalizing m with
  | nil => simpa using hm
  | cons it rest ih =>
    simp only [List.foldl_cons]
    apply ih
    by_cases hg : G it
    · simp only [assocUpd, hg, if_true]
      have hval : P (K it) (comb (List.lookup (K it) m) it) := by
        apply hcomb it _ hg
        intro v hv
        exact hm.2 _ (lookup_mem hv)
      constructor
      · rw [Js.keys_mapSet]
        by_cases hmem : K it ∈ m.map Prod.fst
        · simpa [hmem] using hm.1
        · simp only [hmem, if_false]
          simpa [List.nodup_append, hmem] using hm.1
      · intro e he
        rcases Js.mem_mapSet _ _ _ _ he with h | h
        · exact hm.2 _ h
        · rw [h]; exact hval
    · have hg2 : G it = false := by simpa using hg
      simpa [assocUpd, hg2] using hm

/-- Every entry of a dedupe fold either was already in the map or records
some item of the input list. -/
theorem mem_foldl_assocUpd {β : Type} (G : Item → Bool) (K : Item → String)
    (comb : Option β → Item → β) (mkV : Item → β)
    (hn : ∀ it, comb none it = mkV it)
    (hc : ∀ v it, comb (some v) it = v ∨ comb (some v) it = mkV it)
    (l : List Item) (m : List (String × β)) (e : String × β)
    (he : e ∈ l.foldl (assocUpd G K comb) m) :
    e ∈ m ∨ ∃ it ∈ l, e = (K it, mkV it) := by
  induction l generalizing m with
  | nil => simp at he; simp [he]
  | cons it rest ih =>
    simp only [List.foldl_cons] at he
    rcases ih _ he with h | h
    · by_cases hg : G it
      · simp only [assocUpd, hg, if_true] at h
        rcases Js.mem_mapSet _ _ _ _ h with h2 | h2
        · exact Or.inl h2
        · rcases Classical.em (∃ v, List.lookup (K it) m = some v) with ⟨v, hv⟩ | hno
          · rw [hv] at h2
            rcases hc v it with h3 | h3
            · rw [h3] at h2
              exact Or.inl (h2 ▸ lookup_mem hv)
            · right; exact ⟨it, by simp, by rw [h2, h3]⟩
          · have hnone : List.lookup (K it) m = none := by
              cases hx : List.lookup (K it) m with
              | none => rfl
              | some v => exact absurd ⟨v, hx⟩ hno
            rw [hnone, hn] at h2
            right; exact ⟨it, by simp, h2⟩
      · have hg2 : G it = false := by simpa using hg
        simp only [assocUpd, hg2, if_false] at h
        exact Or.inl h
    · obtain ⟨it2, hit2, hval⟩ := h
      right; exact ⟨it2, by simp [hit2], hval⟩

/-- Running a dedupe fold over guard-passing items whose keys are fresh and
pairwise distinct just appends one fresh entry per item. -/
theorem foldl_assocUpd_fresh {β : Type} (G : Item → Bool) (K : Item → String)
    (comb : Option β → Item → β) (l : List Item) (m : List (String × β))
    (hfresh : ∀ it ∈ l, G it = true ∧ K it ∉ m.map Prod.fst)
    (hnodup : (l.map K).Nodup) :
    l.foldl (assocUpd G K comb) m = m ++ l.map (fun it => (K it, comb none it)) := by
  induction l generalizing m with
  | nil => simp
  | cons it rest ih =>
    obtain ⟨hg, hknot⟩ := hfresh it (by simp)
    have hnone : List.lookup (K it) m = none := lookup_eq_none_of_not_mem_keys hknot
    have hstep : assocUpd G K comb m it = m ++ [(K it, comb none it)] := by
      simp only [assocUpd, hg, if_true, hnone]
      exact Js.mapSet_append_of_not_mem m _ _ hknot
    simp only [List.foldl_cons, hstep]
    rw [ih]
    · simp
    · intro it2 hit2
      refine ⟨(hfresh it2 (by simp [hit2])).1, ?_⟩
      simp only [List.map_append, List.mem_append]
      push_neg
      refine ⟨(hfresh it2 (by simp [hit2])).2, ?_⟩
      have : K it2 ≠ K it := by
        simp only [List.map_cons, List.nodup_cons] at hnodup
        intro hEq
        exact hnodup.1 (hEq ▸ List.mem_map_of_mem K hit2)
      simpa using this
    · simp only [List.map_cons, List.nodup_cons] at hnodup
      exact hnodup.2

theorem values_filter_eq_nil {β : Type} (K : Item → String) (π : β → Item)
    (m : List (String × β)) (k : String)
    (hk : ∀ e ∈ m, K (π e.2) = e.1) (hne : ∀ e ∈ m, e.1 ≠ k) :
    (m.map (fun e => π e.2)).filter (fun x => K x == k) = [] := by
  induction m with
  | nil => simp
  | cons e rest ih =>
    have h1 : K (π e.2) = e.1 := hk e (by simp)
    have h2 : e.1 ≠ k := hne e (by simp)
    have hb : (K (π e.2) == k) = false := Js.beq_false_of_ne (h1 ▸ h2)
    simp only [List.map_cons, List.filter_cons, hb, if_neg Bool.false_ne_true]
    exact ih (fun e2 he2 => hk e2 (by simp [he2])) (fun e2 he2 => hne e2 (by simp [he2]))

/-- Projecting the values of a key-consistent, key-distinct map and filtering
by a key yields exactly the (at most one) entry stored at that key. -/
theorem values_filter {β : Type} (K : Item → String) (π : β → Item)
    (m : List (String × β)) (k : String)
    (hk : ∀ e ∈ m, K (π e.2) = e.1) (hnd : (m.map Prod.fst).Nodup) :
    (m.map (fun e => π e.2)).filter (fun x => K x == k)
      = ((List.lookup k m).map π).toList := by
  induction m with
  | nil => simp [List.lookup]
  | cons e rest ih =>
    obtain ⟨k0, v0⟩ := e
    have hE : K (π v0) = k0 := hk (k0, v0) (by simp)
    simp only [List.map_cons, List.nodup_cons] at hnd
    by_cases hkk : k0 = k
    · subst hkk
      have hb : (K (π v0) == k0) = true := by simp [hE]
      have hrest : (rest.map (fun e => π e.2)).filter (fun x => K x == k0) = [] := by
        apply values_filter_eq_nil K π rest k0 (fun e2 he2 => hk e2 (by simp [he2]))
        intro e2 he2 hEq
        exact hnd.1 (hEq ▸ List.mem_map_of_mem Prod.fst he2)
      simp [List.filter_cons, hb, List.lookup, hrest]
    · have hb : (K (π v0) == k) = false := Js.beq_false_of_ne (hE ▸ hkk)
      have hb2 : (k == k0) = false := Js.beq_false_of_ne (Ne.symm hkk)
      simp only [List.map_cons, List.filter_cons, hb, if_neg Bool.false_ne_true,
        List.lookup, hb2]
      exact ih (fun e2 he2 => hk e2 (by simp [he2])) hnd.2

end Fold

namespace Js

/-- A single quote character (written via its code point). -/
def sq : Char := Char.ofNat 39

/-- Opening brace character. -/
def lbrace : Char := Char.ofNat 123

/-- Closing brace character. -/
def rbrace : Char := Char.ofNat 125

/-- The regex class matched by JS whitespace escapes, restricted to the code
points that occur in the markup these scripts scan. -/
def jsIsSpace (c : Char) : Bool :=
  c == ' ' || c == Char.ofNat 9 || c == Char.ofNat 10 || c == Char.ofNat 11 ||
    c == Char.ofNat 12 || c == Char.ofNat 13 || c == Char.ofNat 160

/-- The JS regex word-character class (ASCII letters, digits, underscore). -/
def isWordChar (c : Char) : Bool :=
  c.isAlphanum || c == Char.ofNat 95

/-- Case-insensitive character comparison (ASCII folding, as the regex `i`
flag performs on these inputs). -/
def ciEq (a b : Char) : Bool :=
  a.toLower == b.toLower

/-- Consume the literal pattern case-insensitively; `some rest` on success. -/
def eatCI : List Char → List Char → Option (List Char)
  | [], l => some l
  | _ :: _, [] => none
  | p :: ps, c :: l => if ciEq p c then eatCI ps l else none

/-- Consume the literal pattern case-sensitively; `some rest` on success. -/
def eatLit : List Char → List Char → Option (List Char)
  | [], l => some l
  | _ :: _, [] => none
  | p :: ps, c :: l => if p == c then eatLit ps l else none

/-- A nonempty `takeWhile` (the regex `+` quantifier over a character class):
the greedy run and the remainder, or `none` when the run is empty. -/
def take1While (p : Char → Bool) (l : List Char) : Option (List Char × List Char) :=
  let t := l.takeWhile p
  if t.isEmpty then none else some (t, l.drop t.length)

/-- Leftmost-match search: try the anchored matcher at every suffix, first
success wins (how a regex engine advances through the subject). -/
def scanFirst {α : Type} (f : List Char → Option α) : List Char → Option α
  | [] => f []
  | c :: rest =>
    match f (c :: rest) with
    | some a => some a
    | none => scanFirst f rest

/-- Suffix after the first occurrence of `pat` (JS `indexOf` + slice). -/
def splitAfterFirst (pat : List Char) : List Char → Option (List Char)
  | [] => if pat.isEmpty then some [] else none
  | c :: rest =>
    if pat.isPrefixOf (c :: rest) then some ((c :: rest).drop pat.length)
    else splitAfterFirst pat rest

/-- Characters before the first occurrence of `pat`. -/
def beforeFirst (pat : List Char) : List Char → Option (List Char)
  | [] => if pat.isEmpty then some [] else none
  | c :: rest =>
    if pat.isPrefixOf (c :: rest) then some []
    else (beforeFirst pat rest).map (c :: ·)

/-- Fuelled core of JS `s.split(sep)` for a nonempty separator: each found
separator consumes at least one character, so fuel `length + 1` suffices. -/
def splitOnF (sep : List Char) : Nat → List Char → List (List Char)
  | 0, l => [l]
  | fuel + 1, l =>
    match beforeFirst sep l, splitAfterFirst sep l with
    | some pre, some rest => pre :: splitOnF sep fuel rest
    | _, _ => [l]

/-- JS `s.split(sep)` (see `splitOnF`). -/
def jsSplit (s sep : String) : List String :=
  (splitOnF sep.data (s.data.length + 1) s.data).map String.mk

theorem eatCI_length (p l r : List Char) (h : eatCI p l = some r) :
    r.length + p.length = l.length := by
  induction p generalizing l with
  | nil => simp [eatCI] at h; simp [h]
  | cons p0 ps ih =>
    cases l with
    | nil => simp [eatCI] at h
    | cons c l2 =>
      by_cases hc : ciEq p0 c
      · simp only [eatCI, hc, if_true] at h
        have := ih l2 h
        simp [List.length_cons]
        omega
      · simp [eatCI, hc] at h

theorem eatLit_length (p l r : List Char) (h : eatLit p l = some r) :
    r.length + p.length = l.length := by
  induction p generalizing l with
  | nil => simp [eatLit] at h; simp [h]
  | cons p0 ps ih =>
    cases l with
    | nil => simp [eatLit] at h
    | cons c l2 =>
      by_cases hc : p0 == c
      · simp only [eatLit, hc, if_true] at h
        have := ih l2 h
        simp [List.length_cons]
        omega
      · simp [eatLit, hc] at h

theorem take1While_length (p : Char → Bool) (l t r : List Char)
    (h : take1While p l = some (t, r)) : 1 ≤ t.length ∧ t.length + r.length = l.length := by
  simp only [take1While] at h
  by_cases he : (l.takeWhile p).isEmpty
  · simp [he] at h
  · simp only [he, if_neg Bool.false_ne_true, Option.some.injEq, Prod.mk.injEq] at h
    obtain ⟨ht, hr⟩ := h
    subst ht; subst hr
    constructor
    · cases hx : l.takeWhile p with
      | nil => rw [hx] at he; simp [List.isEmpty] at he
      | cons a b => simp [hx]
    · have h1 : (l.takeWhile p).length ≤ l.length := (List.takeWhile_prefix p).length_le
      simp [List.length_drop]
      omega

/-- Restricted model of the `JSON.parse` builtin (not repository code): it
accepts exactly the flat objects of string keys and escape-free string values
that the Bing `m` attribute blobs carry, and returns `none` — the thrown
`SyntaxError` — on anything else.  The collector only ever reads the string
fields `murl`/`imgurl`/`turl`/`purl` of the parsed value, so the restriction
does not change any behaviour this file reasons about. -/
def skipWs (l : List Char) : List Char :=
  l.dropWhile (fun c => c == ' ' || c == Char.ofNat 9 || c == Char.ofNat 10 || c == Char.ofNat 13)

/-- Parse one JSON string literal (no escapes, per the `jsonParseFlat` model). -/
def parseJString : List Char → Option (String × List Char)
  | c :: rest =>
    if c == '"' then
      let body := rest.takeWhile (fun ch => !(ch == '"' || ch == Char.ofNat 92))
      match rest.drop body.length with
      | q :: r2 => if q == '"' then some (String.mk body, r2) else none
      | [] => none
    else none
  | [] => none

/-- Parse a comma-separated run of `"key":"value"` members (fuelled). -/
def parseMembers : Nat → List Char → Option (List (String × String) × List Char)
  | 0, _ => none
  | fuel + 1, l =>
    match parseJString (skipWs l) with
    | none => none
    | some (k, r1) =>
      match skipWs r1 with
      | c :: r2 =>
        if c == ':' then
          match parseJString (skipWs r2) with
          | none => none
          | some (v, r3) =>
            match skipWs r3 with
            | c2 :: r4 =>
              if c2 == ',' then
                match parseMembers fuel r4 with
                | some (mems, r5) => some ((k, v) :: mems, r5)
                | none => none
              else some ([(k, v)], c2 :: r4)
            | [] => some ([(k, v)], [])
        else none
      | [] => none

/-- See `skipWs`: the `JSON.parse` model itself. -/
def jsonParseFlat (s : String) : Option (List (String × String)) :=
  match skipWs s.data with
  | c :: rest =>
    if c == lbrace then
      match skipWs rest with
      | c2 :: r2 =>
        if c2 == rbrace then (if (skipWs r2).isEmpty then some [] else none)
        else
          match parseMembers (s.length + 1) (c2 :: r2) with
          | some (mems, r3) =>
            match skipWs r3 with
            | c3 :: r4 =>
              if c3 == rbrace && (skipWs r4).isEmpty then some mems else none
            | [] => none
          | none => none
      | [] => none
    else none
  | [] => none

/-- Field access on a parsed JSON object: with duplicate keys the last
occurrence wins, as in a JS object literal. -/
def jsGet (obj : List (String × String)) (k : String) : Option String :=
  List.lookup k obj.reverse

end Js

/-!
`src/collector/collect-hotwheels.mjs` concatenates three script variants:
the Bing-image-search collector (`HW1` below, lines 1–298), the Playwright
collector (`HW2`, lines 299–525) and the Bing-RSS collector (`HW3`,
lines 526–751).
-/

namespace HW1

/-- A retailer classification rule (`{ key, match }` in the source; the
`match` field is renamed `matchers` because `match` is a Lean keyword). -/
structure Rule where
  key : String
  matchers : List String
deriving Repr, DecidableEq

/-- `RETAILERS` (collect-hotwheels.mjs lines 10–20). -/
def RETAILERS : List Rule :=
  [ ⟨"zara", ["zara.com"]⟩,
    ⟨"hm", ["hm.com", "www2.hm.com"]⟩,
    ⟨"next", ["next.co.uk"]⟩,
    ⟨"asos", ["asos.com"]⟩,
    ⟨"zalando", ["zalando.co.uk", "zalando.com"]⟩,
    ⟨"pinterest", ["pinterest.com", "pinterest.co.uk", "pinterest.fr"]⟩,
    ⟨"boxlunch", ["boxlunch.com"]⟩,
    ⟨"pacsun", ["pacsun.com"]⟩,
    ⟨"bucketsandspades", ["bucketsandspades.com.au"]⟩ ]

/-- `MAX_ITEMS` (line 5). -/
def MAX_ITEMS : Nat := 200

/-- `htmlUnescape` (lines 53–62): the fixed chain of `replaceAll` calls. -/
def htmlUnescape (s : String) : String :=
  Js.jsReplaceAll (Js.jsReplaceAll (Js.jsReplaceAll (Js.jsReplaceAll (Js.jsReplaceAll
    (Js.jsReplaceAll (Js.jsReplaceAll s "&quot;" "\"") "&#34;" "\"") "&amp;" "&")
    "&#38;" "&") "&lt;" "<") "&gt;" ">") "&#39;" (String.mk [Js.sq])

/-- `normalizeRetailer` (lines 64–70): lower-case the whole URL string and
return the key of the first rule one of whose matchers occurs as a substring
of it — of the entire URL, not of its hostname; unmatched URLs give `null`. -/
def normalizeRetailer (url : String) : Option String :=
  let u := Js.lowerS url
  (RETAILERS.find? (fun r => r.matchers.any (fun m => Js.jsIncludes u m))).map Rule.key

/-- `stripQueryHash` (lines 72–81): clear search and hash via the URL
builtin, returning the input unchanged when `new URL` throws. -/
def stripQueryHash (url : String) : String :=
  match Js.parseURL url with
  | some u => Js.JsURL.serialize { u with search := "", fragment := "" }
  | none => url

/-- Anchored matcher for the H&M pattern `productpage\.(\d+)\.html` (`i` flag). -/
def hmMatchAt (l : List Char) : Option String :=
  match Js.eatCI "productpage.".data l with
  | none => none
  | some r =>
    match Js.take1While Char.isDigit r with
    | none => none
    | some (ds, r2) =>
      if (Js.eatCI ".html".data r2).isSome then some (String.mk ds) else none

/-- Anchored matcher for the Next pattern `/style/[^/]+/([^/?#]+)` (`i` flag). -/
def nextMatchAt (l : List Char) : Option String :=
  match Js.eatCI "/style/".data l with
  | none => none
  | some r =>
    match Js.take1While (fun c => !(c == '/')) r with
    | none => none
    | some (_, r2) =>
      match Js.eatCI "/".data r2 with
      | none => none
      | some r3 =>
        match Js.take1While (fun c => !(c == '/' || c == '?' || c == '#')) r3 with
        | none => none
        | some (cap, _) => some (String.mk cap)

/-- Anchored matcher for the Zara pattern `p(\d+)\.html` (`i` flag). -/
def zaraHtmlMatchAt (l : List Char) : Option String :=
  match Js.eatCI "p".data l with
  | none => none
  | some r =>
    match Js.take1While Char.isDigit r with
    | none => none
    | some (ds, r2) =>
      if (Js.eatCI ".html".data r2).isSome then some (String.mk ds) else none

/-- Anchored matcher for a literal prefix followed by a captured digit run
(the `/product/(\d+)`, `/prd/(\d+)` and `productid=(\d+)` patterns). -/
def litDigitsMatchAt (pre : String) (l : List Char) : Option String :=
  match Js.eatCI pre.data l with
  | none => none
  | some r =>
    match Js.take1While Char.isDigit r with
    | none => none
    | some (ds, _) => some (String.mk ds)

/-- Anchored matcher for the Pinterest pattern `/pin/([^/]+)` (`i` flag). -/
def pinMatchAt (l : List Char) : Option String :=
  match Js.eatCI "/pin/".data l with
  | none => none
  | some r =>
    match Js.take1While (fun c => !(c == '/')) r with
    | none => none
    | some (cap, _) => some (String.mk cap)

/-- The fall-through tail of `styleKey` (lines 117–122): key by the
lower-cased pathname, or by the whole lower-cased URL when parsing throws. -/
def styleKeyDefault (retailer u : String) : String :=
  match Js.parseURL u with
  | some urlObj => retailer ++ ":" ++ Js.lowerS urlObj.pathname
  | none => retailer ++ ":" ++ Js.lowerS u

/-- `styleKey` (lines 84–123).  The source is a run of
`if (retailer === "...") { ... return ... }` blocks over the stripped URL;
since `retailer` selects at most one block, they are embedded as one
if-chain, each block falling through to `styleKeyDefault` when its
pattern does not match. -/
def styleKey (retailer productUrl : String) : String :=
  let u := stripQueryHash productUrl
  if retailer == "hm" then
    match Js.scanFirst hmMatchAt u.data with
    | some d => "hm:" ++ d
    | none => styleKeyDefault retailer u
  else if retailer == "next" then
    match Js.scanFirst nextMatchAt u.data with
    | some cap => "next:" ++ Js.lowerS cap
    | none => styleKeyDefault retailer u
  else if retailer == "zara" then
    match Js.scanFirst zaraHtmlMatchAt u.data with
    | some d => "zara:p" ++ d
    | none =>
      match Js.scanFirst (litDigitsMatchAt "/product/") u.data with
      | some d => "zara:" ++ d
      | none => styleKeyDefault retailer u
  else if retailer == "asos" then
    match Js.scanFirst (litDigitsMatchAt "/prd/") u.data with
    | some d => "asos:" ++ d
    | none =>
      match Js.scanFirst (litDigitsMatchAt "productid=") u.data with
      | some d => "asos:" ++ d
      | none => styleKeyDefault retailer u
  else if retailer == "pinterest" then
    match Js.scanFirst pinMatchAt u.data with
    | some cap => "pinterest:" ++ cap
    | none => styleKeyDefault retailer u
  else styleKeyDefault retailer u

/-- `imageScore` (lines 125–135): the additive URL heuristic. -/
def imageScore (imageUrl : String) : Int :=
  let s := Js.lowerS imageUrl
  (if Js.jsIncludes s "original" then 4 else 0) +
  (if Js.jsIncludes s "2160" || Js.jsIncludes s "imwidth=2160" then 3 else 0) +
  (if Js.jsIncludes s "1260" || Js.jsIncludes s "imwidth=1260" then 2 else 0) +
  (if Js.jsIncludes s "750" || Js.jsIncludes s "width=750" then 1 else 0) +
  (if Js.jsIncludes s "thumb" || Js.jsIncludes s "thumbnail" then -2 else 0) +
  (if Js.endsWithS s ".jpg" || Js.jsIncludes s ".jpg?" then 1 else 0)

/-- `pinterestLooksRelevant` (lines 138–145). -/
def pinterestLooksRelevant (productUrl imageUrl : String) : Bool :=
  let s := Js.lowerS (productUrl ++ " " ++ imageUrl)
  let hasBrand := Js.jsIncludes s "hot-wheels" || Js.jsIncludes s "hotwheels" ||
    (Js.jsIncludes s "hot" && Js.jsIncludes s "wheels")
  let apparelHints := ["tshirt", "t-shirt", "tee", "hoodie", "sweatshirt", "jumper",
    "jogger", "joggers", "pyjama", "pajama", "shirt", "top", "set"]
  hasBrand && apparelHints.any (fun k => Js.jsIncludes s k)

/-- A `(product_url, image_url)` pair as produced by `parseBingImages`. -/
structure RawPair where
  product_url : String
  image_url : String
deriving Repr, DecidableEq

/-- Anchored matcher for one step of the `parseBingImages` regex
`\sm="([^"]+)"` (line 162): a whitespace character, the literal `m="`, a
nonempty run of non-quote characters (the raw attribute value), and the
closing quote.  Returns the capture and the remainder after the match. -/
def matchMAt (l : List Char) : Option (String × List Char) :=
  match l with
  | [] => none
  | c :: rest =>
    if Js.jsIsSpace c then
      match Js.eatLit ['m', '=', '"'] rest with
      | none => none
      | some r1 =>
        match Js.take1While (fun ch => !(ch == '"')) r1 with
        | none => none
        | some (body, r2) =>
          match r2 with
          | q :: r3 => if q == '"' then some (String.mk body, r3) else none
          | [] => none
    else none

/-- Advance through the subject to the next `\sm="([^"]+)"` match (the
`re.exec` loop's search step). -/
def blobStep : List Char → Option (String × List Char)
  | [] => none
  | c :: rest =>
    match matchMAt (c :: rest) with
    | some pr => some pr
    | none => blobStep rest

theorem matchMAt_length (l : List Char) (b : String) (r : List Char)
    (h : matchMAt l = some (b, r)) : r.length < l.length := by
  cases l with
  | nil => simp [matchMAt] at h
  | cons c rest =>
    by_cases hsp : Js.jsIsSpace c
    · cases h1 : Js.eatLit ['m', '=', '"'] rest with
      | none => simp [matchMAt, hsp, h1] at h
      | some r1 =>
        have hl1 := Js.eatLit_length _ _ _ h1
        cases h2 : Js.take1While (fun ch => !(ch == '"')) r1 with
        | none => simp [matchMAt, hsp, h1, h2] at h
        | some pr =>
          obtain ⟨body, r2⟩ := pr
          have hl2 := Js.take1While_length _ _ _ _ h2
          cases r2 with
          | nil => simp [matchMAt, hsp, h1, h2] at h
          | cons q r3 =>
            by_cases hq : q == '"'
            · simp only [matchMAt, hsp, if_true, h1, h2, hq, Option.some.injEq,
                Prod.mk.injEq] at h
              have hr : r3 = r := h.2
              subst hr
              simp only [List.length_cons] at hl1 hl2 ⊢
              simp at hl1
              omega
            · simp [matchMAt, hsp, h1, h2, hq] at h
    · simp [matchMAt, hsp] at h

theorem blobStep_length (l : List Char) (pr : String × List Char)
    (h : blobStep l = some pr) : pr.2.length < l.length := by
  induction l with
  | nil => simp [blobStep] at h
  | cons c rest ih =>
    simp only [blobStep] at h
    cases hm : matchMAt (c :: rest) with
    | some pr2 =>
      rw [hm] at h
      cases h
      exact matchMAt_length _ _ _ hm
    | none =>
      rw [hm] at h
      have := ih h
      simp only [List.length_cons]
      omega

/-- Fuelled scan for the raw `m="..."` attribute values.  Each match consumes
at least one character of the subject (`blobStep_length`), so the scan
terminates within `length + 1` steps; the fuel only makes that bound
explicit and keeps the recursion structural. -/
def mBlobsF : Nat → List Char → List String
  | 0, _ => []
  | fuel + 1, l =>
    match blobStep l with
    | none => []
    | some pr => pr.1 :: mBlobsF fuel pr.2

/-- The raw `m="..."` attribute values of the subject, in match order. -/
def mBlobs (l : List Char) : List String :=
  mBlobsF (l.length + 1) l

/-- Fuelled body of the `parseBingImages` while-loop (lines 160–183),
translated match by match: HTML-unescape the raw attribute value, try
`JSON.parse` (`continue` on the thrown error), read `murl || imgurl || turl`
and `purl`, and push the pair when both are truthy.  See `mBlobsF` for the
fuel. -/
def parseBingImagesCoreF : Nat → List Char → List RawPair
  | 0, _ => []
  | fuel + 1, l =>
    match blobStep l with
    | none => []
    | some pr =>
      match Js.jsonParseFlat (htmlUnescape pr.1) with
      | none => parseBingImagesCoreF fuel pr.2
      | some obj =>
        let image_url := Js.jsOr (Js.jsGet obj "murl")
          (Js.jsOr (Js.jsGet obj "imgurl") (Js.jsOr (Js.jsGet obj "turl") none))
        let product_url := Js.jsOr (Js.jsGet obj "purl") none
        match image_url, product_url with
        | some i, some p =>
          if !(i == "") && !(p == "") then ⟨p, i⟩ :: parseBingImagesCoreF fuel pr.2
          else parseBingImagesCoreF fuel pr.2
        | some _, none => parseBingImagesCoreF fuel pr.2
        | none, _ => parseBingImagesCoreF fuel pr.2

/-- The `parseBingImages` loop over the whole subject. -/
def parseBingImagesCore (l : List Char) : List RawPair :=
  parseBingImagesCoreF (l.length + 1) l

/-- `parseBingImages` (lines 160–183). -/
def parseBingImages (html : String) : List RawPair :=
  parseBingImagesCore html.data

end HW1

namespace HW1

/-- A map entry of `dedupeByStyleKeepBest`: the spread `{ ...it, _score }`
(lines 247). -/
structure Scored where
  item : Item
  score : Int
deriving Repr, DecidableEq

/-- The truthiness guard of line 240:
`if (!it?.retailer || !it?.product_url || !it?.image_url) continue`. -/
def itemOk (it : Item) : Bool :=
  !(it.retailer == "") && !(it.product_url == "") && !(it.image_url == "")

/-- The dedupe key of an item (line 242). -/
def keyOf (it : Item) : String :=
  styleKey it.retailer it.product_url

/-- The dedupe score of an item (line 243). -/
def scOf (it : Item) : Int :=
  imageScore it.image_url

/-- One iteration of the `dedupeByStyleKeepBest` loop (lines 239–249). -/
def dedupeStep (m : List (String × Scored)) (it : Item) : List (String × Scored) :=
  if !(itemOk it) then m
  else
    let key := keyOf it
    let score := scOf it
    match List.lookup key m with
    | none => Js.mapSet m key ⟨it, score⟩
    | some existing =>
      if score > existing.score then Js.mapSet m key ⟨it, score⟩ else m

/-- `dedupeByStyleKeepBest` (lines 236–252): fold the items into the map and
return the values with the `_score` field stripped, in insertion order. -/
def dedupeByStyleKeepBest (items : List Item) : List Item :=
  (items.foldl dedupeStep []).map (fun e => e.2.item)

/-- The combine function `dedupeStep` instantiates `Fold.assocUpd` with:
keep the incumbent unless the new score is strictly greater. -/
def combBest (old : Option Scored) (it : Item) : Scored :=
  match old with
  | none => ⟨it, scOf it⟩
  | some ex => if scOf it > ex.score then ⟨it, scOf it⟩ else ex

theorem dedupeStep_eq_assocUpd :
    dedupeStep = Fold.assocUpd itemOk keyOf combBest := by
  funext m it
  by_cases hok : itemOk it
  · simp only [dedupeStep, hok, Bool.not_true, if_neg Bool.false_ne_true,
      Fold.assocUpd, if_true]
    cases hl : List.lookup (keyOf it) m with
    | none => simp [combBest, hl]
    | some ex =>
      by_cases hgt : scOf it > ex.score
      · simp [combBest, hl, hgt]
      · simp only [combBest, hl, hgt, if_neg, if_false]
        exact (Js.mapSet_of_lookup_self m _ ex hl).symm
  · have hok2 : itemOk it = false := by simpa using hok
    simp [dedupeStep, hok2, Fold.assocUpd]

/-- The guard-passing items of `l` in the `StyleKey` group `k`. -/
def groupOf (l : List Item) (k : String) : List Item :=
  l.filter (fun it => itemOk it && (keyOf it == k))

/-- The running best of a group, seeded with an initial candidate
(the value the dedupe map holds at a key while folding its group). -/
def bestAux (s : Scored) : List Item → Scored
  | [] => s
  | it :: g => if scOf it > s.score then bestAux ⟨it, scOf it⟩ g else bestAux s g

theorem foldl_combBest_some (g : List Item) (s : Scored) :
    g.foldl (fun acc it => some (combBest acc it)) (some s) = some (bestAux s g) := by
  induction g generalizing s with
  | nil => simp [bestAux]
  | cons it g2 ih =>
    by_cases hgt : scOf it > s.score
    · have hc : combBest (some s) it = ⟨it, scOf it⟩ := by simp [combBest, hgt]
      simp only [List.foldl_cons, hc, ih, bestAux, if_pos hgt]
    · have hc : combBest (some s) it = s := by simp [combBest, hgt]
      simp only [List.foldl_cons, hc, ih, bestAux, if_neg hgt]

theorem find?_congr_mem {α : Type} (p q : α → Bool) (l : List α)
    (h : ∀ x ∈ l, p x = q x) : l.find? p = l.find? q := by
  induction l with
  | nil => simp
  | cons a l2 ih =>
    have ha := h a (by simp)
    rw [List.find?_cons, List.find?_cons, ha, ih (fun x hx => h x (by simp [hx]))]

theorem exists_max_scOf (g : List Item) (hg : g ≠ []) :
    ∃ y ∈ g, ∀ o ∈ g, scOf o ≤ scOf y := by
  induction g with
  | nil => exact absurd rfl hg
  | cons a g2 ih =>
    cases g2 with
    | nil => exact ⟨a, by simp, by simp⟩
    | cons b g3 =>
      obtain ⟨y2, hy2mem, hy2max⟩ := ih (by simp)
      by_cases hle : scOf a ≤ scOf y2
      · refine ⟨y2, by simp [hy2mem], ?_⟩
        intro o ho
        rcases List.mem_cons.mp ho with h | h
        · exact h ▸ hle
        · exact hy2max o h
      · refine ⟨a, by simp, ?_⟩
        intro o ho
        rcases List.mem_cons.mp ho with h | h
        · exact h ▸ le_refl _
        · exact le_trans (hy2max o h) (le_of_not_le hle)

/-- The seeded running best equals the first element that strictly beats the
seed and is a maximum of the whole remaining group (or the seed itself when
nothing beats it). -/
theorem bestAux_eq_find (g : List Item) (s : Scored) :
    bestAux s g
      = match g.find? (fun it => decide (s.score < scOf it)
            && g.all (fun o => decide (scOf o ≤ scOf it))) with
        | none => s
        | some it => ⟨it, scOf it⟩ := by
  induction g generalizing s with
  | nil => simp [bestAux]
  | cons it0 g2 ih =>
    by_cases hgt : scOf it0 > s.score
    · have hstep : bestAux s (it0 :: g2) = bestAux ⟨it0, scOf it0⟩ g2 := by
        simp [bestAux, hgt]
      have ih2 := ih ⟨it0, scOf it0⟩
      dsimp only at ih2
      rw [hstep, ih2]
      by_cases hall : ∀ x ∈ g2, scOf x ≤ scOf it0
      · have hfind2 : g2.find? (fun it => decide (scOf it0 < scOf it)
            && g2.all (fun o => decide (scOf o ≤ scOf it))) = none := by
          rw [List.find?_eq_none]
          intro x hx
          simp only [Bool.and_eq_true, decide_eq_true_eq, not_and]
          intro hlt
          exact absurd (hall x hx) (not_le.mpr hlt)
        have hp0 : (decide (s.score < scOf it0)
            && (it0 :: g2).all (fun o => decide (scOf o ≤ scOf it0))) = true := by
          simp only [Bool.and_eq_true, decide_eq_true_eq, List.all_cons, List.all_eq_true]
          exact ⟨hgt, by simp, fun o ho => by simpa using hall o ho⟩
        rw [List.find?_cons]
        simp only [hp0, hfind2]
      · push_neg at hall
        obtain ⟨x, hxmem, hxgt⟩ := hall
        have hp0 : (decide (s.score < scOf it0)
            && (it0 :: g2).all (fun o => decide (scOf o ≤ scOf it0))) = false := by
          rw [Bool.eq_false_iff]
          intro hcl
          simp only [Bool.and_eq_true, decide_eq_true_eq, List.all_cons,
            List.all_eq_true] at hcl
          exact absurd (hcl.2.2 x hxmem) (not_le.mpr hxgt)
        rw [List.find?_cons]
        simp only [hp0]
        have hcongr : g2.find? (fun it => decide (s.score < scOf it)
              && (it0 :: g2).all (fun o => decide (scOf o ≤ scOf it)))
            = g2.find? (fun it => decide (scOf it0 < scOf it)
              && g2.all (fun o => decide (scOf o ≤ scOf it))) := by
          apply find?_congr_mem
          intro y hy
          rw [Bool.eq_iff_iff]
          simp only [Bool.and_eq_true, decide_eq_true_eq, List.all_cons, List.all_eq_true]
          by_cases hally : ∀ o ∈ g2, scOf o ≤ scOf y
          · by_cases hy0 : scOf it0 < scOf y
            · constructor
              · intro _; exact ⟨hy0, fun o ho => hally o ho⟩
              · intro _
                exact ⟨lt_trans hgt hy0, ⟨le_of_lt hy0, fun o ho => hally o ho⟩⟩
            · have hy0le : scOf y ≤ scOf it0 := le_of_not_lt hy0
              have hcontr : scOf it0 < scOf it0 :=
                lt_of_lt_of_le (lt_of_lt_of_le hxgt (hally x hxmem)) hy0le
              exact absurd hcontr (lt_irrefl _)
          · push_neg at hally
            obtain ⟨o, homem, hogt⟩ := hally
            constructor
            · rintro ⟨-, -, hcl⟩
              exact absurd (hcl o homem) (not_le.mpr hogt)
            · rintro ⟨-, hcl⟩
              exact absurd (hcl o homem) (not_le.mpr hogt)
        rw [hcongr]
        cases hf : g2.find? (fun it => decide (scOf it0 < scOf it)
            && g2.all (fun o => decide (scOf o ≤ scOf it))) with
        | some it => rfl
        | none =>
          exfalso
          obtain ⟨y, hymem, hymax⟩ := exists_max_scOf g2 (by rintro rfl; simp at hxmem)
          have hya : scOf it0 < scOf y := lt_of_lt_of_le hxgt (hymax x hxmem)
          have hpy : (decide (scOf it0 < scOf y)
              && g2.all (fun o => decide (scOf o ≤ scOf y))) = true := by
            simp only [Bool.and_eq_true, decide_eq_true_eq, List.all_eq_true]
            exact ⟨hya, fun o ho => by simpa using hymax o ho⟩
          rw [List.find?_eq_none] at hf
          exact absurd hpy (by simpa using hf y hymem)
    · have hle : scOf it0 ≤ s.score := le_of_not_lt hgt
      have hstep : bestAux s (it0 :: g2) = bestAux s g2 := by
        simp [bestAux, hgt]
      rw [hstep, ih]
      have hp0 : (decide (s.score < scOf it0)
          && (it0 :: g2).all (fun o => decide (scOf o ≤ scOf it0))) = false := by
        rw [Bool.eq_false_iff]
        intro hcl
        simp only [Bool.and_eq_true, decide_eq_true_eq] at hcl
        exact absurd hcl.1 (not_lt.mpr hle)
      rw [List.find?_cons]
      simp only [hp0]
      have hcongr : g2.find? (fun it => decide (s.score < scOf it)
            && g2.all (fun o => decide (scOf o ≤ scOf it)))
          = g2.find? (fun it => decide (s.score < scOf it)
            && (it0 :: g2).all (fun o => decide (scOf o ≤ scOf it))) := by
        apply find?_congr_mem
        intro y hy
        rw [Bool.eq_iff_iff]
        simp only [Bool.and_eq_true, decide_eq_true_eq, List.all_cons, List.all_eq_true]
        constructor
        · rintro ⟨h1, hcl⟩
          exact ⟨h1, ⟨le_of_lt (lt_of_le_of_lt hle h1), hcl⟩⟩
        · rintro ⟨h1, -, hcl⟩
          exact ⟨h1, hcl⟩
      rw [hcongr]

/-- The fold of `combBest` over a group from an empty seed picks the first
element of the group attaining the group maximum of `scOf`. -/
theorem bestOf_eq_find (g : List Item) :
    g.foldl (fun acc it => some (combBest acc it)) none
      = (g.find? (fun it => g.all (fun o => decide (scOf o ≤ scOf it)))).map
          (fun it => (⟨it, scOf it⟩ : Scored)) := by
  cases g with
  | nil => simp
  | cons a g2 =>
    have h0 : combBest none a = ⟨a, scOf a⟩ := rfl
    have hb := bestAux_eq_find g2 ⟨a, scOf a⟩
    dsimp only at hb
    rw [List.foldl_cons, h0, foldl_combBest_some, hb]
    by_cases hall : ∀ x ∈ g2, scOf x ≤ scOf a
    · have hfind2 : g2.find? (fun it => decide (scOf a < scOf it)
          && g2.all (fun o => decide (scOf o ≤ scOf it))) = none := by
        rw [List.find?_eq_none]
        intro x hx
        simp only [Bool.and_eq_true, decide_eq_true_eq, not_and]
        intro hlt
        exact absurd (hall x hx) (not_le.mpr hlt)
      have hp0 : ((a :: g2).all (fun o => decide (scOf o ≤ scOf a))) = true := by
        simp only [List.all_cons, Bool.and_eq_true, List.all_eq_true, decide_eq_true_eq]
        exact ⟨by simp, fun o ho => hall o ho⟩
      rw [List.find?_cons]
      simp only [hp0, hfind2]
      simp
    · push_neg at hall
      obtain ⟨x, hxmem, hxgt⟩ := hall
      have hp0 : ((a :: g2).all (fun o => decide (scOf o ≤ scOf a))) = false := by
        rw [Bool.eq_false_iff]
        intro hcl
        simp only [List.all_cons, Bool.and_eq_true, List.all_eq_true,
          decide_eq_true_eq] at hcl
        exact absurd (hcl.2 x hxmem) (not_le.mpr hxgt)
      rw [List.find?_cons]
      simp only [hp0]
      have hcongr : g2.find? (fun it => decide (scOf a < scOf it)
            && g2.all (fun o => decide (scOf o ≤ scOf it)))
          = g2.find? (fun it => (a :: g2).all (fun o => decide (scOf o ≤ scOf it))) := by
        apply find?_congr_mem
        intro y hy
        rw [Bool.eq_iff_iff]
        simp only [List.all_cons, Bool.and_eq_true, decide_eq_true_eq, List.all_eq_true]
        by_cases hally : ∀ o ∈ g2, scOf o ≤ scOf y
        · by_cases hy0 : scOf a < scOf y
          · constructor
            · intro _
              exact ⟨le_of_lt hy0, fun o ho => hally o ho⟩
            · intro _
              exact ⟨hy0, fun o ho => hally o ho⟩
          · have hy0le : scOf y ≤ scOf a := le_of_not_lt hy0
            have hcontr : scOf a < scOf a :=
              lt_of_lt_of_le (lt_of_lt_of_le hxgt (hally x hxmem)) hy0le
            exact absurd hcontr (lt_irrefl _)
        · push_neg at hally
          obtain ⟨o, homem, hogt⟩ := hally
          constructor
          · rintro ⟨-, hcl⟩
            exact absurd (hcl o homem) (not_le.mpr hogt)
          · rintro ⟨-, hcl⟩
            exact absurd (hcl o homem) (not_le.mpr hogt)
      cases hf : g2.find? (fun it => decide (scOf a < scOf it)
          && g2.all (fun o => decide (scOf o ≤ scOf it))) with
      | some it => rw [← hcongr, hf]; simp
      | none =>
        exfalso
        obtain ⟨y, hymem, hymax⟩ := exists_max_scOf g2 (by rintro rfl; simp at hxmem)
        have hya : scOf a < scOf y := lt_of_lt_of_le hxgt (hymax x hxmem)
        have hpy : (decide (scOf a < scOf y)
            && g2.all (fun o => decide (scOf o ≤ scOf y))) = true := by
          simp only [Bool.and_eq_true, decide_eq_true_eq, List.all_eq_true]
          exact ⟨hya, fun o ho => by simpa using hymax o ho⟩
        rw [List.find?_eq_none] at hf
        exact absurd hpy (by simpa using hf y hymem)

/-- Per-entry invariant of the dedupe map: the key is the stored item's
`StyleKey` and the stored item passed the truthiness guard. -/
def entryP (k : String) (v : Scored) : Prop :=
  k = keyOf v.item ∧ itemOk v.item = true

theorem combBest_entryP (it : Item) (old : Option Scored) (hg : itemOk it = true)
    (hold : ∀ v, old = some v → entryP (keyOf it) v) :
    entryP (keyOf it) (combBest old it) := by
  cases old with
  | none => exact ⟨rfl, hg⟩
  | some ex =>
    by_cases hgt : scOf it > ex.score
    · simp only [combBest, hgt, if_pos]
      exact ⟨rfl, hg⟩
    · simp only [combBest, hgt, if_neg, if_false]
      exact hold ex rfl

theorem dedupe_fold_inv (l : List Item) :
    Fold.MInv entryP (l.foldl (Fold.assocUpd itemOk keyOf combBest) []) :=
  Fold.minv_preserved itemOk keyOf combBest entryP
    (fun it old hg hold => combBest_entryP it old hg hold) l [] ⟨by simp, by simp⟩

/-- The one dedupe-map entry of a `StyleKey` is the first guard-passing item
of that group attaining the group's maximal `imageScore`. -/
theorem lookup_dedupe_fold (l : List Item) (k : String) :
    List.lookup k (l.foldl (Fold.assocUpd itemOk keyOf combBest) [])
      = ((groupOf l k).find? (fun it =>
          (groupOf l k).all (fun o => decide (scOf o ≤ scOf it)))).map
            (fun it => (⟨it, scOf it⟩ : Scored)) := by
  rw [Fold.lookup_foldl_assocUpd itemOk keyOf combBest l [] k]
  have hemp : List.lookup k ([] : List (String × Scored)) = none := rfl
  rw [hemp]
  exact bestOf_eq_find (groupOf l k)

/-- The output of `dedupeByStyleKeepBest` restricted to one `StyleKey`. -/
theorem dedupe_filter_eq (l : List Item) (k : String) :
    (dedupeByStyleKeepBest l).filter (fun it => keyOf it == k)
      = ((groupOf l k).find? (fun it =>
          (groupOf l k).all (fun o => decide (scOf o ≤ scOf it)))).toList := by
  unfold dedupeByStyleKeepBest
  rw [dedupeStep_eq_assocUpd]
  have hinv := dedupe_fold_inv l
  have hfil := Fold.values_filter keyOf Scored.item
    (l.foldl (Fold.assocUpd itemOk keyOf combBest) []) k
    (fun e he => ((hinv.2 e he).1).symm) hinv.1
  have hmapeq : ((l.foldl (Fold.assocUpd itemOk keyOf combBest) []).map
        (fun e => e.2.item))
      = ((l.foldl (Fold.assocUpd itemOk keyOf combBest) []).map
        (fun e => Scored.item e.2)) := rfl
  rw [hmapeq, hfil, lookup_dedupe_fold]
  cases (groupOf l k).find? (fun it =>
      (groupOf l k).all (fun o => decide (scOf o ≤ scOf it))) with
  | none => rfl
  | some it => rfl

theorem mem_dedupe (l : List Item) (it2 : Item)
    (h : it2 ∈ dedupeByStyleKeepBest l) : it2 ∈ l ∧ itemOk it2 = true := by
  unfold dedupeByStyleKeepBest at h
  rw [dedupeStep_eq_assocUpd] at h
  obtain ⟨e, he, heq⟩ := List.mem_map.mp h
  have hinv := dedupe_fold_inv l
  have hok : itemOk it2 = true := heq ▸ (hinv.2 e he).2
  refine ⟨?_, hok⟩
  have hmem := Fold.mem_foldl_assocUpd itemOk keyOf combBest
    (fun it => ⟨it, scOf it⟩) (fun it => rfl)
    (fun v it => by
      by_cases hgt : scOf it > v.score
      · right; simp [combBest, hgt]
      · left; simp [combBest, hgt])
    l [] e he
  rcases hmem with h2 | ⟨it0, hit0, heq2⟩
  · simp at h2
  · have : e.2.item = it0 := by rw [heq2]
    rw [← heq, this]
    exact hit0

theorem dedupe_keys_nodup (l : List Item) :
    ((dedupeByStyleKeepBest l).map keyOf).Nodup := by
  unfold dedupeByStyleKeepBest
  rw [dedupeStep_eq_assocUpd]
  have hinv := dedupe_fold_inv l
  have : ((l.foldl (Fold.assocUpd itemOk keyOf combBest) []).map
        (fun e => e.2.item)).map keyOf
      = (l.foldl (Fold.assocUpd itemOk keyOf combBest) []).map Prod.fst := by
    rw [List.map_map]
    apply List.map_congr_left
    intro e he
    exact ((hinv.2 e he).1).symm
  rw [this]
  exact hinv.1

/-- Rerunning `dedupeByStyleKeepBest` on a guard-passing list with pairwise
distinct `StyleKey`s reproduces the list. -/
theorem dedupe_eq_self (l : List Item) (hok : ∀ it ∈ l, itemOk it = true)
    (hnd : (l.map keyOf).Nodup) : dedupeByStyleKeepBest l = l := by
  unfold dedupeByStyleKeepBest
  rw [dedupeStep_eq_assocUpd]
  rw [Fold.foldl_assocUpd_fresh itemOk keyOf combBest l []
    (fun it hit => ⟨hok it hit, by simp⟩) hnd]
  simp only [List.nil_append, List.map_map]
  have h2 : ∀ it ∈ l, ((fun e => e.2.item) ∘ fun it => (keyOf it, combBest none it)) it
      = id it := fun it _ => rfl
  rw [List.map_congr_left h2, List.map_id]

/-- The candidate-classification body of the query loop (lines 207–222):
drop unmatched domains, apply the Pinterest-only relevance gate, and keep
the rest as candidates. -/
def classifyItem (p : RawPair) : Option Item :=
  match normalizeRetailer p.product_url with
  | none => none
  | some retailer =>
    if retailer == "pinterest" && !pinterestLooksRelevant p.product_url p.image_url then
      none
    else some ⟨retailer, p.product_url, p.image_url⟩

/-- The candidates one fetched page contributes: parse the page and classify
each parsed pair (lines 202–225). -/
def candidatesOf (html : String) : List Item :=
  (parseBingImages html).filterMap classifyItem

/-- The quick image-URL dedupe of `main` (lines 275–283): keep an item only
when its exact `image_url` has not been seen yet. -/
def quickDedupe : List Item → List String → List Item
  | [], _ => []
  | it :: rest, seen =>
    if seen.contains it.image_url then quickDedupe rest seen
    else it :: quickDedupe rest (it.image_url :: seen)

/-- The final output assembly of `main` (lines 285–286): style-dedupe the
quick-deduped candidates and cap at `MAX_ITEMS`. -/
def finalOf (l : List Item) : List Item :=
  (dedupeByStyleKeepBest (quickDedupe l [])).take MAX_ITEMS

theorem mem_quickDedupe (l : List Item) (seen : List String) (it : Item)
    (h : it ∈ quickDedupe l seen) : it ∈ l := by
  induction l generalizing seen with
  | nil => simp [quickDedupe] at h
  | cons a rest ih =>
    by_cases hs : seen.contains a.image_url
    · have hs2 : seen.contains a.image_url = true := hs
      simp only [quickDedupe, hs2, if_pos] at h
      exact List.mem_cons_of_mem a (ih _ h)
    · have hs2 : seen.contains a.image_url = false := by simpa using hs
      simp only [quickDedupe, hs2, Bool.false_eq_true, if_false, List.mem_cons] at h
      rcases h with h | h
      · simp [h]
      · exact List.mem_cons_of_mem a (ih _ h)

theorem jsOr_ne_empty (a b : Option String) (v : String) (hb : b = some v → v ≠ "")
    (h : Js.jsOr a b = some v) : v ≠ "" := by
  by_cases ht : Js.jsTruthy a
  · simp only [Js.jsOr, ht, if_pos] at h
    subst h
    simpa [Js.jsTruthy] using ht
  · simp only [Js.jsOr, ht, if_neg, if_false] at h
    exact hb h

/-- The processing `parseBingImages` applies to one raw `m="..."` attribute
value: unescape, `JSON.parse` (`none` models the caught exception), read the
image and product fields, and require both truthy. -/
def blobItem (raw : String) : Option RawPair :=
  match Js.jsonParseFlat (htmlUnescape raw) with
  | none => none
  | some obj =>
    let image_url := Js.jsOr (Js.jsGet obj "murl")
      (Js.jsOr (Js.jsGet obj "imgurl") (Js.jsOr (Js.jsGet obj "turl") none))
    let product_url := Js.jsOr (Js.jsGet obj "purl") none
    match image_url, product_url with
    | some i, some p => if !(i == "") && !(p == "") then some ⟨p, i⟩ else none
    | some _, none => none
    | none, _ => none

theorem coreF_eq_filterMap (fuel : Nat) : ∀ l : List Char, l.length < fuel →
    parseBingImagesCoreF fuel l = (mBlobsF fuel l).filterMap blobItem := by
  induction fuel with
  | zero => intro l h; omega
  | succ fuel ih =>
    intro l h
    simp only [parseBingImagesCoreF, mBlobsF]
    cases hb : blobStep l with
    | none => simp
    | some pr =>
      have hlen := blobStep_length l pr hb
      have ih2 := ih pr.2 (by omega)
      dsimp only
      rw [List.filterMap_cons]
      cases hj : Js.jsonParseFlat (htmlUnescape pr.1) with
      | none =>
        have hbi : blobItem pr.1 = none := by
          unfold blobItem; rw [hj]
        simp only [hj, hbi]
        exact ih2
      | some obj =>
        cases hio : Js.jsOr (Js.jsGet obj "murl")
            (Js.jsOr (Js.jsGet obj "imgurl") (Js.jsOr (Js.jsGet obj "turl") none)) with
        | none =>
          have hbi : blobItem pr.1 = none := by
            unfold blobItem; rw [hj]; simp only []; rw [hio]
          simp only [hj, hio, hbi]
          exact ih2
        | some i =>
          cases hpo : Js.jsOr (Js.jsGet obj "purl") none with
          | none =>
            have hbi : blobItem pr.1 = none := by
              unfold blobItem; rw [hj]; simp only []; rw [hio, hpo]
            simp only [hj, hio, hpo, hbi]
            exact ih2
          | some p =>
            by_cases hcond : (!(i == "") && !(p == "")) = true
            · have hbi : blobItem pr.1 = some ⟨p, i⟩ := by
                unfold blobItem; rw [hj]; simp only []; rw [hio, hpo]
                simp [hcond]
              simp only [hj, hio, hpo, hbi, hcond, if_pos, List.filterMap_cons]
              rw [ih2]
            · have hcond2 : (!(i == "") && !(p == "")) = false := by simpa using hcond
              have hbi : blobItem pr.1 = none := by
                unfold blobItem; rw [hj]; simp only []; rw [hio, hpo]
                simp [hcond2]
              simp only [hj, hio, hpo, hbi, hcond2, Bool.false_eq_true, if_false]
              exact ih2

/-- The exec-loop of `parseBingImages` processes each `m` blob independently:
a blob whose unescaped content fails to parse (or lacks the URL fields) is
dropped and scanning continues with the rest of the subject. -/
theorem parseBingImagesCore_eq_filterMap (l : List Char) :
    parseBingImagesCore l = (mBlobs l).filterMap blobItem := by
  unfold parseBingImagesCore mBlobs
  exact coreF_eq_filterMap (l.length + 1) l (by omega)

/-- Every pair `parseBingImages` emits has both URL fields nonempty. -/
theorem parseBingImages_fields_ne (html : String) (pr : RawPair)
    (h : pr ∈ parseBingImages html) : pr.product_url ≠ "" ∧ pr.image_url ≠ "" := by
  unfold parseBingImages at h
  rw [parseBingImagesCore_eq_filterMap] at h
  obtain ⟨raw, hraw, hbi⟩ := List.mem_filterMap.mp h
  unfold blobItem at hbi
  cases hj : Js.jsonParseFlat (htmlUnescape raw) with
  | none => rw [hj] at hbi; simp at hbi
  | some obj =>
    rw [hj] at hbi
    simp only [] at hbi
    cases hio : Js.jsOr (Js.jsGet obj "murl")
        (Js.jsOr (Js.jsGet obj "imgurl") (Js.jsOr (Js.jsGet obj "turl") none)) with
    | none => rw [hio] at hbi; simp at hbi
    | some i =>
      cases hpo : Js.jsOr (Js.jsGet obj "purl") none with
      | none => rw [hio, hpo] at hbi; simp at hbi
      | some p =>
        rw [hio, hpo] at hbi
        by_cases hcond : (!(i == "") && !(p == "")) = true
        · simp only [hcond, if_pos, Option.some.injEq] at hbi
          subst hbi
          simp only [Bool.and_eq_true, Bool.not_eq_eq_eq_not, Bool.not_true] at hcond
          exact ⟨by simpa using hcond.2, by simpa using hcond.1⟩
        · have hcond2 : (!(i == "") && !(p == "")) = false := by simpa using hcond
          simp [hcond2] at hbi

theorem normalizeRetailer_mem (url r : String) (h : normalizeRetailer url = some r) :
    r ∈ RETAILERS.map Rule.key ∧ r ≠ "" := by
  dsimp only [normalizeRetailer] at h
  cases hf : RETAILERS.find? (fun ru => ru.matchers.any
      (fun m => Js.jsIncludes (Js.lowerS url) m)) with
  | none => rw [hf] at h; simp at h
  | some ru =>
    rw [hf] at h
    simp at h
    have hmem := List.mem_of_find?_eq_some hf
    constructor
    · exact h ▸ List.mem_map_of_mem Rule.key hmem
    · have hkeys : ∀ x ∈ RETAILERS.map Rule.key, x ≠ "" := by decide
      exact hkeys r (h ▸ List.mem_map_of_mem Rule.key hmem)

/-- Soundness of classification: a produced candidate carries a configured
retailer key and the parsed pair's URLs. -/
theorem classifyItem_sound (p : RawPair) (it : Item) (h : classifyItem p = some it) :
    it.retailer ∈ RETAILERS.map Rule.key ∧ it.retailer ≠ "" ∧
      it.product_url = p.product_url ∧ it.image_url = p.image_url := by
  unfold classifyItem at h
  cases hn : normalizeRetailer p.product_url with
  | none => rw [hn] at h; simp at h
  | some r =>
    rw [hn] at h
    obtain ⟨hmem, hne⟩ := normalizeRetailer_mem _ _ hn
    by_cases hp : (r == "pinterest") && !pinterestLooksRelevant p.product_url p.image_url
    · simp [hp] at h
    · have hp2 : ((r == "pinterest") && !pinterestLooksRelevant p.product_url p.image_url)
          = false := by simpa using hp
      simp only [hp2, Bool.false_eq_true, if_false, Option.some.injEq] at h
      subst h
      exact ⟨hmem, hne, rfl, rfl⟩

/-- Every candidate a page contributes has nonempty fields and a configured
retailer key. -/
theorem candidatesOf_sound (html : String) (it : Item) (h : it ∈ candidatesOf html) :
    it.retailer ∈ RETAILERS.map Rule.key ∧ it.retailer ≠ "" ∧
      it.product_url ≠ "" ∧ it.image_url ≠ "" := by
  unfold candidatesOf at h
  obtain ⟨pr, hpr, hcl⟩ := List.mem_filterMap.mp h
  obtain ⟨hmem, hne, hpeq, hieq⟩ := classifyItem_sound pr it hcl
  obtain ⟨hp, hi⟩ := parseBingImages_fields_ne html pr hpr
  exact ⟨hmem, hne, hpeq ▸ hp, hieq ▸ hi⟩

end HW1



namespace HW3

/-- `decodeXml` (collect-hotwheels.mjs lines 572–579): the fixed chain of
`replaceAll` calls of the RSS variant. -/
def decodeXml (s : String) : String :=
  Js.jsReplaceAll (Js.jsReplaceAll (Js.jsReplaceAll (Js.jsReplaceAll (Js.jsReplaceAll
    s "&amp;" "&") "&lt;" "<") "&gt;" ">") "&quot;" "\"") "&#39;" (String.mk [Js.sq])

/-- `extractBetween` (lines 614–620): the text between the first `startTag`
and the next `endTag` after it, `null` when either is missing. -/
def extractBetween (s startTag endTag : String) : Option String :=
  (Js.splitAfterFirst startTag.data s.data).bind fun r =>
    (Js.beforeFirst endTag.data r).map String.mk

/-- Anchored matcher for the `extractAttr` regex `name=["']([^"']+)["']`
(`i` flag): the attribute name, `=`, a quote of either kind, a nonempty run
of non-quote characters, and a closing quote of either kind. -/
def attrMatchAt (name : List Char) (l : List Char) : Option String :=
  match Js.eatCI (name ++ ['=']) l with
  | none => none
  | some r =>
    match r with
    | [] => none
    | q :: tl =>
      if q == '"' || q == Js.sq then
        match Js.take1While (fun c => !(c == '"' || c == Js.sq)) tl with
        | none => none
        | some (body, r2) =>
          match r2 with
          | q2 :: _ => if q2 == '"' || q2 == Js.sq then some (String.mk body) else none
          | [] => none
      else none

/-- `extractAttr` (lines 622–626): first match of the attribute regex in the
tag text, XML-decoded. -/
def extractAttr (tagText attrName : String) : Option String :=
  (Js.scanFirst (attrMatchAt attrName.data) tagText.data).map decodeXml

/-- Anchored matcher for a tag regex `<name\b[^>]*>` (`i` flag): the literal
tag opener, a word boundary, any non-`>` characters and the closing `>`.
Returns the original-case matched slice. -/
def tagMatchAt (name : List Char) (l : List Char) : Option String :=
  match Js.eatCI ('<' :: name) l with
  | none => none
  | some r =>
    match r with
    | [] => none
    | c :: _ =>
      if Js.isWordChar c then none
      else
        let body := r.takeWhile (fun ch => !(ch == '>'))
        match r.drop body.length with
        | gt :: _ =>
          if gt == '>' then some (String.mk (l.take (name.length + 1) ++ body ++ ['>']))
          else none
        | [] => none

/-- First match of `<name\b[^>]*>` in the item text (`itemXml.match(...)?.[0]`). -/
def firstTag (name s : String) : Option String :=
  Js.scanFirst (tagMatchAt name.data) s.data

/-- Anchored matcher for one start position of the description-image regex
`<img[^>]+src=["']([^"']+)["']` (`i` flag): after the literal `<img`, the
greedy `[^>]+` gap tries the longest feasible gap first (regex backtracking),
then the `src` attribute with its quoted nonempty value. -/
def imgFrom (r : List Char) : Nat → Option String
  | 0 => none
  | j + 1 =>
    match attrMatchAt "src".data (r.drop (j + 1)) with
    | some v => some v
    | none => imgFrom r j

/-- See `imgFrom`: the full anchored `<img ... src` matcher. -/
def imgMatchAt (l : List Char) : Option String :=
  match Js.eatCI "<img".data l with
  | none => none
  | some r => imgFrom r (r.takeWhile (fun c => !(c == '>'))).length

/-- The `<img ... src=...>` capture inside a decoded description (line 660). -/
def imgSrcOf (s : String) : Option String :=
  Js.scanFirst imgMatchAt s.data

/-- Anchored matcher for one `<item\b[\s\S]*?<\/item>` block (`gi` flags):
the non-greedy body ends at the first subsequent `</item>`.  Returns the
original-case matched block and the remainder after it. -/
def findCI (pat : List Char) : List Char → Option Nat
  | [] => if pat.isEmpty then some 0 else none
  | c :: rest =>
    if (Js.eatCI pat (c :: rest)).isSome then some 0
    else (findCI pat rest).map (· + 1)

/-- See `findCI`. -/
def itemBlockAt (l : List Char) : Option (String × List Char) :=
  match Js.eatCI "<item".data l with
  | none => none
  | some r =>
    let boundary := match r with
      | [] => true
      | c :: _ => !Js.isWordChar c
    if boundary then
      match findCI "</item>".data r with
      | none => none
      | some i => some (String.mk (l.take (5 + i + 7)), r.drop (i + 7))
    else none

/-- Fuelled scan for all `<item>...</item>` blocks (the `xml.match(itemRe)`
global search); each found block consumes at least one character, so fuel
`length + 1` always suffices. -/
def itemBlocksF : Nat → List Char → List String
  | 0, _ => []
  | _ + 1, [] => []
  | fuel + 1, c :: rest =>
    match itemBlockAt (c :: rest) with
    | some (blk, r2) => blk :: itemBlocksF fuel r2
    | none => itemBlocksF fuel rest

/-- All `<item>` blocks of the RSS body, in match order (line 631–632). -/
def itemBlocks (l : List Char) : List String :=
  itemBlocksF (l.length + 1) l

/-- The media:thumbnail url extraction (lines 641–642). -/
def thumbUrl (b : String) : Option String :=
  match firstTag "media:thumbnail" b with
  | some tag => extractAttr tag "url"
  | none => none

/-- The media:content url extraction (lines 645–648). -/
def contentUrl (b : String) : Option String :=
  match firstTag "media:content" b with
  | some tag => extractAttr tag "url"
  | none => none

/-- The enclosure url extraction (lines 651–654). -/
def enclosureUrl (b : String) : Option String :=
  match firstTag "enclosure" b with
  | some tag => extractAttr tag "url"
  | none => none

/-- The description `<img src>` extraction (lines 657–663). -/
def descImgUrl (b : String) : Option String :=
  match extractBetween b "<description>" "</description>" with
  | some desc => if desc == "" then none else imgSrcOf (decodeXml desc)
  | none => none

/-- The sequential image extraction of the `parseBingRssItems` loop
(lines 638–663): each later source runs only when every earlier one left
`image_url` falsy. -/
def itemImageUrl (b : String) : Option String :=
  let i1 := thumbUrl b
  let i2 := if Js.jsTruthy i1 then i1 else contentUrl b
  let i3 := if Js.jsTruthy i2 then i2 else enclosureUrl b
  if Js.jsTruthy i3 then i3 else descImgUrl b

/-- The `<link>` extraction (lines 635–636): trimmed and decoded, `null`
when the tag pair is missing or its content empty. -/
def linkOf (blk : String) : Option String :=
  match extractBetween blk "<link>" "</link>" with
  | some linkRaw => if linkRaw == "" then none else some (decodeXml (Js.trimS linkRaw))
  | none => none

/-- `parseBingRssItems` (lines 628–671): per block, the `<link>` text as the
product URL, the image extracted by `itemImageUrl`, and the pair is kept
only when both are truthy. -/
def parseBingRssItems (xml : String) : List (String × String) :=
  (itemBlocks xml.data).filterMap fun blk =>
    let product_url := linkOf blk
    let image_url := itemImageUrl blk
    if Js.jsTruthy product_url && Js.jsTruthy image_url then
      match product_url, image_url with
      | some p, some i => some (p, i)
      | some _, none => none
      | none, _ => none
    else none

theorem scanFirst_some {α : Type} (f : List Char → Option α) (l : List Char) (a : α)
    (h : Js.scanFirst f l = some a) : ∃ l2, f l2 = some a := by
  induction l with
  | nil => exact ⟨[], h⟩
  | cons c rest ih =>
    simp only [Js.scanFirst] at h
    cases hf : f (c :: rest) with
    | some b => rw [hf] at h; exact ⟨c :: rest, hf ▸ h⟩
    | none => rw [hf] at h; exact ih h

theorem attrMatchAt_ne_empty (name l : List Char) (v : String)
    (h : attrMatchAt name l = some v) : v ≠ "" := by
  unfold attrMatchAt at h
  cases he : Js.eatCI (name ++ ['=']) l with
  | none => rw [he] at h; simp at h
  | some r =>
    rw [he] at h
    cases r with
    | nil => simp at h
    | cons q tl =>
      by_cases hq : q == '"' || q == Js.sq
      · simp only [hq, if_pos] at h
        cases ht : Js.take1While (fun c => !(c == '"' || c == Js.sq)) tl with
        | none => rw [ht] at h; simp at h
        | some pr =>
          obtain ⟨body, r2⟩ := pr
          rw [ht] at h
          have hlen := (Js.take1While_length _ _ _ _ ht).1
          cases r2 with
          | nil => simp at h
          | cons q2 r3 =>
            by_cases hq2 : q2 == '"' || q2 == Js.sq
            · simp only [hq2, if_pos, Option.some.injEq] at h
              subst h
              intro hemp
              have h2 : body = [] := congrArg String.data hemp
              rw [h2] at hlen
              simp at hlen
            · simp [hq2] at h
      · simp [hq] at h

theorem imgFrom_ne_empty (r : List Char) (n : Nat) (v : String)
    (h : imgFrom r n = some v) : v ≠ "" := by
  induction n with
  | zero => simp [imgFrom] at h
  | succ j ih =>
    simp only [imgFrom] at h
    cases ha : attrMatchAt "src".data (r.drop (j + 1)) with
    | some w =>
      simp only [ha, Option.some.injEq] at h
      exact h ▸ attrMatchAt_ne_empty _ _ _ ha
    | none =>
      simp only [ha] at h
      exact ih h

theorem imgSrcOf_ne_empty (s : String) (v : String) (h : imgSrcOf s = some v) : v ≠ "" := by
  obtain ⟨l2, hl2⟩ := scanFirst_some _ _ _ h
  unfold imgMatchAt at hl2
  cases he : Js.eatCI "<img".data l2 with
  | none => rw [he] at hl2; simp at hl2
  | some r =>
    rw [he] at hl2
    exact imgFrom_ne_empty _ _ _ hl2

theorem descImgUrl_of_not_truthy (b : String) (h : Js.jsTruthy (descImgUrl b) = false) :
    descImgUrl b = none := by
  cases hd : descImgUrl b with
  | none => rfl
  | some v =>
    exfalso
    have hveq : v = "" := by
      rw [hd] at h
      simpa [Js.jsTruthy] using h
    unfold descImgUrl at hd
    cases he : extractBetween b "<description>" "</description>" with
    | none => rw [he] at hd; simp at hd
    | some desc =>
      rw [he] at hd
      by_cases hde : desc == ""
      · simp [hde] at hd
      · have hde2 : (desc == "") = false := by simpa using hde
        simp only [hde2, Bool.false_eq_true, if_false] at hd
        exact imgSrcOf_ne_empty _ _ hd hveq

/-- The sequential extraction equals taking the first truthy result of the
four extractors in their fixed priority order. -/
theorem itemImageUrl_eq_firstTruthy (b : String) :
    itemImageUrl b
      = Js.firstTruthy [thumbUrl b, contentUrl b, enclosureUrl b, descImgUrl b] := by
  unfold itemImageUrl
  simp only [Js.firstTruthy]
  by_cases h1 : Js.jsTruthy (thumbUrl b)
  · simp [h1]
  · have h1f : Js.jsTruthy (thumbUrl b) = false := by simpa using h1
    simp only [h1f, Bool.false_eq_true, if_false]
    by_cases h2 : Js.jsTruthy (contentUrl b)
    · simp [h2]
    · have h2f : Js.jsTruthy (contentUrl b) = false := by simpa using h2
      simp only [h2f, Bool.false_eq_true, if_false]
      by_cases h3 : Js.jsTruthy (enclosureUrl b)
      · simp [h3]
      · have h3f : Js.jsTruthy (enclosureUrl b) = false := by simpa using h3
        simp only [h3f, Bool.false_eq_true, if_false]
        by_cases h4 : Js.jsTruthy (descImgUrl b)
        · simp [h4]
        · have h4f : Js.jsTruthy (descImgUrl b) = false := by simpa using h4
          simp only [h4f, Bool.false_eq_true, if_false]
          exact descImgUrl_of_not_truthy b h4f


end HW3

/-- The dedupe key shared by the `retailer::product_url`-keyed variants:
the template string `${item.retailer}::${item.product_url}`. -/
def rpKey (it : Item) : String :=
  it.retailer ++ "::" ++ it.product_url

namespace Fold

theorem getLast?_cons_ne_none {α : Type} (a : α) (l : List α) :
    (a :: l).getLast? ≠ none := by
  induction l generalizing a with
  | nil => simp
  | cons b g3 ih => rw [List.getLast?_cons_cons]; exact ih b

theorem foldl_lastWins {α : Type} (g : List α) (s : Option α) :
    g.foldl (fun _ it => some it) s
      = match g.getLast? with
        | some x => some x
        | none => s := by
  induction g generalizing s with
  | nil => simp
  | cons a g2 ih =>
    rw [List.foldl_cons, ih]
    cases g2 with
    | nil => simp
    | cons b g3 =>
      rw [List.getLast?_cons_cons]
      cases hgl : (b :: g3).getLast? with
      | none => exact absurd hgl (getLast?_cons_ne_none b g3)
      | some x => rfl

theorem foldl_firstWins {α : Type} (g : List α) (s : Option α) :
    g.foldl (fun acc it => some (acc.getD it)) s
      = match s with
        | some v => some v
        | none => g.head? := by
  induction g generalizing s with
  | nil => cases s <;> rfl
  | cons a g2 ih =>
    rw [List.foldl_cons]
    cases s with
    | some v =>
      rw [show (some v).getD a = v from rfl, ih]
    | none =>
      rw [show (Option.getD none a) = a from rfl, ih]
      rfl

/-- Output of a last-wins `retailer::product_url` dedupe, restricted to one
key: exactly the last guard-passing occurrence of that key. -/
theorem lastWins_filter (G : Item → Bool) (l : List Item) (k : String) :
    (((l.foldl (assocUpd G rpKey (fun _ it => it)) []).map (fun e => e.2)).filter
        (fun it => rpKey it == k))
      = ((l.filter (fun it => G it && (rpKey it == k))).getLast?).toList := by
  have hinv : MInv (fun k2 v => k2 = rpKey v)
      (l.foldl (assocUpd G rpKey (fun _ it => it)) []) := by
    apply minv_preserved G rpKey (fun _ it => it) (fun k2 v => k2 = rpKey v)
    · intro it old _ _
      rfl
    · exact ⟨by simp, by simp⟩
  have hfil := values_filter rpKey id
    (l.foldl (assocUpd G rpKey (fun _ it => it)) []) k
    (fun e he => (hinv.2 e he).symm) hinv.1
  have hmapeq : ((l.foldl (assocUpd G rpKey (fun _ it => it)) []).map (fun e => e.2))
      = ((l.foldl (assocUpd G rpKey (fun _ it => it)) []).map (fun e => id e.2)) := rfl
  rw [hmapeq, hfil, lookup_foldl_assocUpd]
  have hlast := foldl_lastWins (l.filter (fun it => G it && (rpKey it == k)))
    (List.lookup k ([] : List (String × Item)))
  rw [show (fun (acc : Option Item) it => some ((fun _ it => it) acc it))
      = (fun (_ : Option Item) it => some it) from rfl, hlast]
  cases (l.filter (fun it => G it && (rpKey it == k))).getLast? with
  | none => rfl
  | some x => rfl

/-- Output of a first-wins `retailer::product_url` dedupe, restricted to one
key: exactly the first guard-passing occurrence of that key. -/
theorem firstWins_filter (G : Item → Bool) (l : List Item) (k : String) :
    (((l.foldl (assocUpd G rpKey (fun old it => old.getD it)) []).map
        (fun e => e.2)).filter (fun it => rpKey it == k))
      = ((l.filter (fun it => G it && (rpKey it == k))).head?).toList := by
  have hinv : MInv (fun k2 v => k2 = rpKey v)
      (l.foldl (assocUpd G rpKey (fun old it => old.getD it)) []) := by
    apply minv_preserved G rpKey (fun old it => old.getD it) (fun k2 v => k2 = rpKey v)
    · intro it old _ hold
      cases old with
      | none => rfl
      | some v => exact hold v rfl
    · exact ⟨by simp, by simp⟩
  have hfil := values_filter rpKey id
    (l.foldl (assocUpd G rpKey (fun old it => old.getD it)) []) k
    (fun e he => (hinv.2 e he).symm) hinv.1
  have hmapeq : ((l.foldl (assocUpd G rpKey (fun old it => old.getD it)) []).map
        (fun e => e.2))
      = ((l.foldl (assocUpd G rpKey (fun old it => old.getD it)) []).map
        (fun e => id e.2)) := rfl
  rw [hmapeq, hfil, lookup_foldl_assocUpd]
  have hfirst := foldl_firstWins (l.filter (fun it => G it && (rpKey it == k)))
    (List.lookup k ([] : List (String × Item)))
  rw [show (List.lookup k ([] : List (String × Item))) = none from rfl] at hfirst
  rw [show (List.lookup k ([] : List (String × Item))) = none from rfl, hfirst]
  cases (l.filter (fun it => G it && (rpKey it == k))).head? <;> rfl

end Fold

namespace HW3

/-- The truthiness guard of the RSS dedupe (line 593). -/
def dedupeOk (item : Item) : Bool :=
  !(item.retailer == "") && !(item.product_url == "") && !(item.image_url == "")

/-- One iteration of the RSS `dedupe` loop (lines 592–595):
`map.set` unconditionally, so a later duplicate overwrites. -/
def dedupeStep (m : List (String × Item)) (item : Item) : List (String × Item) :=
  if !(dedupeOk item) then m else Js.mapSet m (rpKey item) item

/-- `dedupe` (collect-hotwheels.mjs lines 589–597). -/
def dedupe (list : List Item) : List Item :=
  (list.foldl dedupeStep []).map (fun e => e.2)

theorem rssDedupeStep_eq_assocUpd :
    dedupeStep = Fold.assocUpd dedupeOk rpKey (fun _ it => it) := by
  funext m item
  by_cases hok : dedupeOk item
  · simp [dedupeStep, hok, Fold.assocUpd]
  · have hok2 : dedupeOk item = false := by simpa using hok
    simp [dedupeStep, hok2, Fold.assocUpd]

end HW3

/-!
The second script of `src/unnamed/part_001` (the Bing-RSS og:image
collector, lines 436–658).
-/
namespace P1B

/-- The truthiness guard of its `dedupe` (line 481):
only `image_url` and `product_url` are checked. -/
def dedupeOk (item : Item) : Bool :=
  !(item.image_url == "") && !(item.product_url == "")

/-- One iteration of its `dedupe` loop (lines 480–483): unconditional
`map.set`, later duplicates overwrite. -/
def dedupeStep (m : List (String × Item)) (item : Item) : List (String × Item) :=
  if !(dedupeOk item) then m else Js.mapSet m (rpKey item) item

/-- `dedupe` (part_001 lines 478–485). -/
def dedupe (list : List Item) : List Item :=
  (list.foldl dedupeStep []).map (fun e => e.2)

theorem p1bDedupeStep_eq_assocUpd :
    dedupeStep = Fold.assocUpd dedupeOk rpKey (fun _ it => it) := by
  funext m item
  by_cases hok : dedupeOk item
  · simp [dedupeStep, hok, Fold.assocUpd]
  · have hok2 : dedupeOk item = false := by simpa using hok
    simp [dedupeStep, hok2, Fold.assocUpd]

end P1B

/-!
`src/unnamed/part_004` (the minimal Playwright collector).
-/
namespace P4

/-- The truthiness guard of its `dedupe` (line 15). -/
def dedupeOk (x : Item) : Bool :=
  !(x.image_url == "") && !(x.product_url == "")

/-- One iteration of its `dedupe` loop (lines 13–17):
`if (!m.has(key)) m.set(key, x)` — the FIRST occurrence of a key is kept
and later duplicates are ignored. -/
def dedupeStep (m : List (String × Item)) (x : Item) : List (String × Item) :=
  if !(dedupeOk x) then m
  else if (List.lookup (rpKey x) m).isSome then m
  else Js.mapSet m (rpKey x) x

/-- `dedupe` (part_004 lines 11–19). -/
def dedupe (list : List Item) : List Item :=
  (list.foldl dedupeStep []).map (fun e => e.2)

theorem p4DedupeStep_eq_assocUpd :
    dedupeStep = Fold.assocUpd dedupeOk rpKey (fun old it => old.getD it) := by
  funext m x
  by_cases hok : dedupeOk x
  · simp only [dedupeStep, hok, Bool.not_true, if_neg Bool.false_ne_true,
      Fold.assocUpd, if_pos]
    cases hl : List.lookup (rpKey x) m with
    | none => simp
    | some v =>
      simp only [Option.isSome_some, if_pos, Option.getD_some]
      exact (Js.mapSet_of_lookup_self m _ v hl).symm
  · have hok2 : dedupeOk x = false := by simpa using hok
    simp [dedupeStep, hok2, Fold.assocUpd]

end P4

/-!
The first script of `src/unnamed/part_001` (the deep Bing-image collector
with the `"other"` fallback bucket, per-retailer caps and local image
downloads, lines 1–435).
-/
namespace P1

/-- `RETAILERS` (part_001 lines 32–42): the extended matcher table. -/
def RETAILERS : List HW1.Rule :=
  [ ⟨"zara", ["zara.com"]⟩,
    ⟨"hm", ["hm.com", "www2.hm.com", "lp2.hm.com", "image.hm.com"]⟩,
    ⟨"next", ["next.co.uk", "xcdn.next.co.uk"]⟩,
    ⟨"asos", ["asos.com"]⟩,
    ⟨"zalando", ["zalando.co.uk", "zalando.com"]⟩,
    ⟨"pinterest", ["pinterest.com", "pinimg.com"]⟩,
    ⟨"boxlunch", ["boxlunch.com"]⟩,
    ⟨"pacsun", ["pacsun.com"]⟩,
    ⟨"bucketsandspades", ["bucketsandspades.com.au"]⟩ ]

/-- `normalizeRetailer` (part_001 lines 124–130): like the HW1 variant but
unmatched URLs fall back to the `"other"` bucket instead of `null`. -/
def normalizeRetailer (url : String) : String :=
  let u := Js.lowerS url
  match RETAILERS.find? (fun r => r.matchers.any (fun m => Js.jsIncludes u m)) with
  | some r => r.key
  | none => "other"

/-- `MAX_ITEMS` (part_001 line 11). -/
def MAX_ITEMS : Nat := 200

/-- `PER_RETAILER_CAP` (part_001 lines 18–29) with the `?? 120` default of
line 364. -/
def capFor (retailer : String) : Nat :=
  match List.lookup retailer
      [("other", 140), ("pinterest", 60), ("zara", 120), ("hm", 120), ("next", 120),
       ("asos", 120), ("zalando", 120), ("boxlunch", 120), ("pacsun", 120),
       ("bucketsandspades", 120)] with
  | some c => c
  | none => 120

/-- `imageScore` (part_001 lines 216–226): like HW1's but the extension bonus
also rewards `.png` and `webp`. -/
def imageScore (imageUrl : String) : Int :=
  let s := Js.lowerS imageUrl
  (if Js.jsIncludes s "original" then 4 else 0) +
  (if Js.jsIncludes s "2160" || Js.jsIncludes s "imwidth=2160" then 3 else 0) +
  (if Js.jsIncludes s "1260" || Js.jsIncludes s "imwidth=1260" then 2 else 0) +
  (if Js.jsIncludes s "750" || Js.jsIncludes s "width=750" then 1 else 0) +
  (if Js.jsIncludes s "thumb" || Js.jsIncludes s "thumbnail" then -2 else 0) +
  (if Js.endsWithS s ".jpg" || Js.jsIncludes s ".jpg?" || Js.endsWithS s ".png" ||
      Js.jsIncludes s ".png?" || Js.jsIncludes s "webp" then 1 else 0)

/-- Stable insertion into a descending-by-score list: the new element goes in
front of the first element whose score is at most its own, so among equal
scores earlier input elements stay earlier. -/
def insertDesc (it : Item) : List Item → List Item
  | [] => [it]
  | b :: rest =>
    if imageScore b.image_url ≤ imageScore it.image_url then it :: b :: rest
    else b :: insertDesc it rest

/-- `deduped.sort((a, b) => imageScore(b.image_url) - imageScore(a.image_url))`
(part_001 line 406).  `Array.prototype.sort` is stable, and a stable sort
under this total comparator is unique, so the stable insertion sort computes
the same list. -/
def sortByScoreDesc : List Item → List Item
  | [] => []
  | a :: rest => insertDesc a (sortByScoreDesc rest)

/-- The loop of `applyPerRetailerCap` (part_001 lines 359–371) with its
running per-retailer counts. -/
def capGo : List Item → List (String × Nat) → List Item
  | [], _ => []
  | it :: rest, counts =>
    let cap := capFor it.retailer
    let c := (List.lookup it.retailer counts).getD 0
    if cap ≤ c then capGo rest counts
    else it :: capGo rest (Js.mapSet counts it.retailer (c + 1))

/-- `applyPerRetailerCap` (part_001 lines 359–371). -/
def applyPerRetailerCap (items : List Item) : List Item :=
  capGo items []

/-- The final download-and-build loop of `main` (part_001 lines 412–424):
stop once `MAX_ITEMS` items are built, skip items whose download fails, and
store the local path as the output `image_url`.  `downloadImage` is a
network effect, modelled by the oracle `dl`. -/
def buildGo (dl : String → String → Option String) : List Item → Nat → List Item
  | [], _ => []
  | it :: rest, n =>
    if MAX_ITEMS ≤ n then []
    else
      match dl it.image_url it.product_url with
      | none => buildGo dl rest n
      | some loc => ⟨it.retailer, it.product_url, loc⟩ :: buildGo dl rest (n + 1)

/-- See `buildGo`. -/
def buildFinal (dl : String → String → Option String) (deduped : List Item) : List Item :=
  buildGo dl deduped 0

/-- Steps 4–6 of `main` (part_001 lines 402–424) applied to the
style-deduplicated list: sort by descending score, apply the per-retailer
caps, then download and cap at `MAX_ITEMS`. -/
def mainTail (dl : String → String → Option String) (deduped : List Item) : List Item :=
  buildFinal dl (applyPerRetailerCap (sortByScoreDesc deduped))

end P1

/-!
`src/unnamed/part_002` (the fail-soft RSS collector with hard relevance
filtering).
-/
namespace P2

/-- A retailer rule of part_002 (lines 57–123): key and web domains.  The
`productUrlPatterns` field is omitted here: it is read only by
`isLikelyProductUrl`, which none of the verified claims touch. -/
structure Rule2 where
  key : String
  domains : List String
deriving Repr, DecidableEq

/-- `RETAILERS` (part_002 lines 57–123), domains only. -/
def RETAILERS : List Rule2 :=
  [ ⟨"zara", ["zara.com"]⟩,
    ⟨"hm", ["hm.com", "www2.hm.com"]⟩,
    ⟨"next", ["next.co.uk"]⟩,
    ⟨"asos", ["asos.com"]⟩,
    ⟨"zalando", ["zalando.co.uk", "zalando.com", "zalando.de", "zalando.fr",
      "zalando.nl", "zalando.it", "zalando.es", "zalando.be"]⟩,
    ⟨"boxlunch", ["boxlunch.com"]⟩,
    ⟨"pacsun", ["pacsun.com"]⟩,
    ⟨"bucketsandspades", ["bucketsandspades.co.uk", "bucketsandspades.com"]⟩,
    ⟨"pinterest", ["pinterest.com"]⟩ ]

/-- `domainOf` (part_002 lines 159–161): the lower-cased hostname, `""` when
`new URL` throws. -/
def domainOf (u : String) : String :=
  match Js.parseURL u with
  | some x => x.host
  | none => ""

/-- `matchesDomain` (part_002 lines 162–165): the hostname equals a
configured domain or is a subdomain of it (a `"." + dom` suffix) — not a
substring test. -/
def matchesDomain (url : String) (domains : List String) : Bool :=
  let d := domainOf url
  domains.any (fun dom => d == dom || Js.endsWithS d ("." ++ dom))

/-- `retailerForUrl` (part_002 lines 166–171): first rule whose domains
match; `null` when none does. -/
def retailerForUrl (url : String) : Option Rule2 :=
  RETAILERS.find? (fun r => matchesDomain url r.domains)

end P2

namespace P1

theorem length_insertDesc (it : Item) (l : List Item) :
    (insertDesc it l).length = l.length + 1 := by
  induction l with
  | nil => rfl
  | cons b rest ih =>
    by_cases h : imageScore b.image_url ≤ imageScore it.image_url
    · simp [insertDesc, h]
    · simp [insertDesc, h, ih]

theorem length_sortByScoreDesc (l : List Item) :
    (sortByScoreDesc l).length = l.length := by
  induction l with
  | nil => rfl
  | cons a rest ih => simp [sortByScoreDesc, length_insertDesc, ih]

theorem mem_insertDesc (x it : Item) (l : List Item) (h : x ∈ insertDesc it l) :
    x = it ∨ x ∈ l := by
  induction l with
  | nil => simp [insertDesc] at h; simp [h]
  | cons b rest ih =>
    by_cases hle : imageScore b.image_url ≤ imageScore it.image_url
    · simp only [insertDesc, hle, if_pos, List.mem_cons] at h
      rcases h with h | h | h
      · simp [h]
      · simp [h]
      · simp [h]
    · simp only [insertDesc, hle, if_neg, if_false, List.mem_cons] at h
      rcases h with h | h
      · simp [h]
      · rcases ih h with h2 | h2
        · simp [h2]
        · simp [h2]

theorem mem_sortByScoreDesc (x : Item) (l : List Item) (h : x ∈ sortByScoreDesc l) :
    x ∈ l := by
  induction l with
  | nil => simp [sortByScoreDesc] at h
  | cons a rest ih =>
    simp only [sortByScoreDesc] at h
    rcases mem_insertDesc x a (sortByScoreDesc rest) h with h2 | h2
    · simp [h2]
    · simp [ih h2]

theorem pairwise_insertDesc (it : Item) (l : List Item)
    (h : l.Pairwise (fun a b => imageScore b.image_url ≤ imageScore a.image_url)) :
    (insertDesc it l).Pairwise
      (fun a b => imageScore b.image_url ≤ imageScore a.image_url) := by
  induction l with
  | nil => simp [insertDesc]
  | cons b rest ih =>
    rw [List.pairwise_cons] at h
    by_cases hle : imageScore b.image_url ≤ imageScore it.image_url
    · simp only [insertDesc, hle, if_pos]
      rw [List.pairwise_cons]
      constructor
      · intro y hy
        rcases List.mem_cons.mp hy with h2 | h2
        · exact h2 ▸ hle
        · exact le_trans (h.1 y h2) hle
      · rw [List.pairwise_cons]
        exact h
    · simp only [insertDesc, hle, if_neg, if_false]
      rw [List.pairwise_cons]
      constructor
      · intro y hy
        rcases mem_insertDesc y it rest hy with h2 | h2
        · exact h2 ▸ le_of_lt (lt_of_not_le hle)
        · exact h.1 y h2
      · exact ih h.2

theorem pairwise_sortByScoreDesc (l : List Item) :
    (sortByScoreDesc l).Pairwise
      (fun a b => imageScore b.image_url ≤ imageScore a.image_url) := by
  induction l with
  | nil => simp [sortByScoreDesc]
  | cons a rest ih => exact pairwise_insertDesc a (sortByScoreDesc rest) ih

theorem capGo_length_uniform (r : String) (l : List Item) :
    ∀ counts : List (String × Nat), (∀ it ∈ l, it.retailer = r) →
    (capGo l counts).length
      = min (capFor r - (List.lookup r counts).getD 0) l.length := by
  induction l with
  | nil => intro counts _; simp [capGo]
  | cons it rest ih =>
    intro counts hall
    have hr : it.retailer = r := hall it (by simp)
    have hrest : ∀ it2 ∈ rest, it2.retailer = r := fun it2 h2 => hall it2 (by simp [h2])
    by_cases hcap : capFor it.retailer ≤ (List.lookup it.retailer counts).getD 0
    · simp only [capGo, hcap, if_pos]
      rw [ih counts hrest]
      rw [hr] at hcap
      have h0 : capFor r - (List.lookup r counts).getD 0 = 0 := by omega
      simp [h0]
    · simp only [capGo, hcap, if_neg, if_false, List.length_cons]
      rw [ih (Js.mapSet counts it.retailer ((List.lookup it.retailer counts).getD 0 + 1))
        hrest]
      rw [hr] at hcap ⊢
      rw [Js.lookup_mapSet_self]
      simp only [Option.getD_some]
      omega

theorem buildGo_length_le (dl : String → String → Option String) (l : List Item) :
    ∀ n : Nat, (buildGo dl l n).length ≤ MAX_ITEMS - n := by
  induction l with
  | nil => intro n; simp [buildGo]
  | cons it rest ih =>
    intro n
    by_cases hn : MAX_ITEMS ≤ n
    · simp [buildGo, hn]
    · simp only [buildGo, hn, if_neg, if_false]
      cases dl it.image_url it.product_url with
      | none => exact le_trans (ih n) (by omega)
      | some loc =>
        simp only [List.length_cons]
        have := ih (n + 1)
        omega

theorem buildGo_length_allSome (loc0 : String) (l : List Item) :
    ∀ n : Nat, (buildGo (fun _ _ => some loc0) l n).length = min (MAX_ITEMS - n) l.length := by
  induction l with
  | nil => intro n; simp [buildGo]
  | cons it rest ih =>
    intro n
    by_cases hn : MAX_ITEMS ≤ n
    · have h0 : MAX_ITEMS - n = 0 := by omega
      simp [buildGo, hn, h0]
    · simp only [buildGo, hn, if_neg, if_false, List.length_cons]
      rw [ih (n + 1)]
      omega

end P1

/-- One network interaction, as seen by a collector: either the HTTP response
(status and body) or a network failure / timeout (the rejection message).
The network is an oracle: each fetch site takes the outcome as an argument. -/
inductive FetchOutcome where
  | success (status : Nat) (text : String)
  | netError (msg : String)
deriving Repr, DecidableEq

namespace P2

/-- The result record of part_002's `fetchText` (lines 188–211). -/
structure FetchRes where
  ok : Bool
  status : Nat
  text : String
deriving Repr, DecidableEq

/-- `fetchText` (part_002 lines 188–211): the fetch runs under a try/catch
with an abort timer; a network error or timeout is caught and returned as
`ok: false, status: 0, text: ""`, a response returns `res.ok`
(status 200–299), its status and its body — it never throws. -/
def fetchText (o : FetchOutcome) : FetchRes :=
  match o with
  | .success st t => ⟨decide (200 ≤ st ∧ st < 300), st, t⟩
  | .netError _ => ⟨false, 0, ""⟩

/-- Anchored matcher for the link regex `<link>([^<]+)<\/link>` (`i` flag). -/
def linkMatchAt (l : List Char) : Option String :=
  match Js.eatCI "<link>".data l with
  | none => none
  | some r =>
    match Js.take1While (fun c => !(c == '<')) r with
    | none => none
    | some (body, r2) =>
      if (Js.eatCI "</link>".data r2).isSome then some (String.mk body) else none

/-- `parseRssLinks` (part_002 lines 213–221): split the body on `<item>`,
drop the preamble, and keep each block's first trimmed `<link>` capture. -/
def parseRssLinks (xml : String) : List String :=
  ((Js.jsSplit xml "<item>").drop 1).filterMap fun block =>
    match Js.scanFirst linkMatchAt block.data with
    | some cap => if cap == "" then none else some (Js.trimS cap)
    | none => none

/-- `bingRssSearch` (part_002 lines 223–232): a failed fetch (network error,
timeout or non-2xx status, all reported by `fetchText` as `ok: false`) is
logged and returned as zero links; otherwise the RSS body is parsed. -/
def bingRssSearch (o : FetchOutcome) : List String :=
  let r := fetchText o
  if r.ok then parseRssLinks r.text else []

/-- The `main().catch` handler of part_002 (lines 415–423): every error
thrown out of `main` — a filesystem write failure included — is caught, an
empty `[]` output file is attempted, and `process.exitCode` is set to `0`
("never fail workflow"); a normal return also exits `0`. -/
def processExitCode (r : Except String Unit) : Nat :=
  match r with
  | .ok _ => 0
  | .error _ => 0

/-- Whether the part_002 catch handler overwrites the output with `[]`
(line 420). -/
def catchWritesEmpty (r : Except String Unit) : Bool :=
  match r with
  | .ok _ => false
  | .error _ => true

end P2

/-!
The second script of `src/unnamed/part_003` (the CDN-first collector,
lines 253–584).
-/
namespace P3B

/-- Its `main().catch` handler (part_003 lines 579–583): any error is logged
and `process.exitCode` is set to `0` ("don't fail workflow"). -/
def processExitCode (r : Except String Unit) : Nat :=
  match r with
  | .ok _ => 0
  | .error _ => 0

end P3B

namespace HW1

/-- `fetchText` (collect-hotwheels.mjs lines 147–158) wraps `fetch` in no
try/catch: a network error or timeout rejects and the exception propagates
to the caller (`Except.error`); a response of any status resolves with its
status and body. -/
def fetchTextE (o : FetchOutcome) : Except String (Nat × String) :=
  match o with
  | .netError m => .error m
  | .success st t => .ok (st, t)

/-- One page step of `collectBingImagesForQuery` (lines 197–202): fetch, then
parse the body.  A rejected fetch propagates out of the loop. -/
def collectPageItems (o : FetchOutcome) : Except String (List RawPair) :=
  (fetchTextE o).map (fun r => parseBingImages r.2)

/-- The `main().catch` handler of collect-hotwheels.mjs (lines 294–298):
an escaped error logs and calls `process.exit(1)`; a normal return exits 0. -/
def processExitCode (r : Except String Unit) : Nat :=
  match r with
  | .ok _ => 0
  | .error _ => 1

end HW1

/-! ## Claim theorems -/

/-- Claim C1: for every input list, `dedupeByStyleKeepBest` keeps, within each
group of candidates sharing a `StyleKey`, exactly one candidate — the
first-seen candidate attaining the group's maximal `imageScore`, so a
strictly higher-scoring candidate always displaces lower-scoring ones and
equal scores are resolved in favour of the first-seen candidate. -/
theorem c1_dedupe_keeps_first_best (l : List Item) (k : String) :
    (HW1.dedupeByStyleKeepBest l).filter (fun it => HW1.keyOf it == k)
      = ((HW1.groupOf l k).find? (fun it =>
          (HW1.groupOf l k).all (fun o => decide (HW1.scOf o ≤ HW1.scOf it)))).toList :=
  HW1.dedupe_filter_eq l k

/-- Claim C3: the style deduplicator is idempotent — rerunning
`dedupeByStyleKeepBest` on its own output returns the same list. -/
theorem c3_dedupe_idempotent (l : List Item) :
    HW1.dedupeByStyleKeepBest (HW1.dedupeByStyleKeepBest l)
      = HW1.dedupeByStyleKeepBest l := by
  apply HW1.dedupe_eq_self
  · intro it hit
    exact (HW1.mem_dedupe l it hit).2
  · exact HW1.dedupe_keys_nodup l

/-- Claim C2: every item of the final written list (style-dedupe of the
quick-deduped candidates, capped at `MAX_ITEMS`) has the three fields
nonempty, carries a configured retailer key, has a `StyleKey` different from
every other output item's, and the list has at most `MAX_ITEMS` entries. -/
theorem c2_output_invariants (l : List Item)
    (h : ∀ it ∈ l, ∃ html, it ∈ HW1.candidatesOf html) :
    (∀ it ∈ HW1.finalOf l,
        it.retailer ≠ "" ∧ it.product_url ≠ "" ∧ it.image_url ≠ "" ∧
        it.retailer ∈ HW1.RETAILERS.map HW1.Rule.key) ∧
    (HW1.finalOf l).Pairwise (fun a b => HW1.keyOf a ≠ HW1.keyOf b) ∧
    (HW1.finalOf l).length ≤ HW1.MAX_ITEMS := by
  refine ⟨?_, ?_, ?_⟩
  · intro it hit
    have hmem : it ∈ HW1.dedupeByStyleKeepBest (HW1.quickDedupe l []) :=
      List.mem_of_mem_take hit
    have h2 := (HW1.mem_dedupe _ _ hmem).1
    have h3 := HW1.mem_quickDedupe _ _ _ h2
    obtain ⟨html, hhtml⟩ := h it h3
    obtain ⟨hk, hne, hp, hi⟩ := HW1.candidatesOf_sound html it hhtml
    exact ⟨hne, hp, hi, hk⟩
  · have hnodup := HW1.dedupe_keys_nodup (HW1.quickDedupe l [])
    have hpw : (HW1.dedupeByStyleKeepBest (HW1.quickDedupe l [])).Pairwise
        (fun a b => HW1.keyOf a ≠ HW1.keyOf b) := List.pairwise_map.mp hnodup
    show ((HW1.dedupeByStyleKeepBest (HW1.quickDedupe l [])).take HW1.MAX_ITEMS).Pairwise
      (fun a b => HW1.keyOf a ≠ HW1.keyOf b)
    exact List.Pairwise.sublist (List.take_sublist _ _) hpw
  · show ((HW1.dedupeByStyleKeepBest (HW1.quickDedupe l [])).take HW1.MAX_ITEMS).length
      ≤ HW1.MAX_ITEMS
    rw [List.length_take]
    exact min_le_left _ _

/-- Claim C4: the structured-blob parser is total and best-effort — it equals
the independent per-fragment processing of every scanned `m="..."` blob, and
a fragment whose unescaped content fails to parse contributes nothing while
the remaining fragments still parse. -/
theorem c4_parse_skips_bad_fragments (html : String) :
    HW1.parseBingImages html = (HW1.mBlobs html.data).filterMap HW1.blobItem ∧
    ∀ raw, Js.jsonParseFlat (HW1.htmlUnescape raw) = none → HW1.blobItem raw = none := by
  constructor
  · exact HW1.parseBingImagesCore_eq_filterMap html.data
  · intro raw hraw
    unfold HW1.blobItem
    rw [hraw]

/-- A concrete Bing image-search page fragment: one well-formed `m` blob. -/
def sampleBingHtml : String :=
  " m=\"\x7b&quot;murl&quot;:&quot;https://static.zara.net/a.jpg&quot;,&quot;purl&quot;:&quot;https://www.zara.com/uk/shirt-p01234.html&quot;\x7d\""

/-- The candidate the sample page yields after classification. -/
def sampleCandidate : Item :=
  ⟨"zara", "https://www.zara.com/uk/shirt-p01234.html", "https://static.zara.net/a.jpg"⟩

set_option maxRecDepth 10000 in
/-- Witness for C2: the invariants instantiated at the candidate list produced
from the concrete sample page. -/
theorem c2_output_invariants_witness :
    (∀ it ∈ HW1.finalOf [sampleCandidate],
        it.retailer ≠ "" ∧ it.product_url ≠ "" ∧ it.image_url ≠ "" ∧
        it.retailer ∈ HW1.RETAILERS.map HW1.Rule.key) ∧
    (HW1.finalOf [sampleCandidate]).Pairwise (fun a b => HW1.keyOf a ≠ HW1.keyOf b) ∧
    (HW1.finalOf [sampleCandidate]).length ≤ HW1.MAX_ITEMS :=
  c2_output_invariants [sampleCandidate] (by
    intro it hit
    refine ⟨sampleBingHtml, ?_⟩
    rw [List.mem_singleton.mp hit]
    decide)

set_option maxRecDepth 10000 in
example :
    HW1.parseBingImages (" m=\"notjson\"" ++ sampleBingHtml) =
      [⟨"https://www.zara.com/uk/shirt-p01234.html", "https://static.zara.net/a.jpg"⟩] := by
  decide

/-- Claim C6: per RSS `<item>` block, the image is the first truthy result of
the fixed priority chain media:thumbnail url, media:content url, enclosure
url, then an `<img src>` embedded in the description; a block whose product
link or image comes out falsy contributes nothing to the output. -/
theorem c6_rss_image_priority (xml : String) :
    HW3.parseBingRssItems xml = (HW3.itemBlocks xml.data).filterMap (fun blk =>
      match HW3.linkOf blk,
        Js.firstTruthy [HW3.thumbUrl blk, HW3.contentUrl blk,
          HW3.enclosureUrl blk, HW3.descImgUrl blk] with
      | some p, some i => if !(p == "") && !(i == "") then some (p, i) else none
      | some _, none => none
      | none, _ => none) := by
  unfold HW3.parseBingRssItems
  refine congrArg (List.filterMap · (HW3.itemBlocks xml.data)) (funext fun blk => ?_)
  rw [← HW3.itemImageUrl_eq_firstTruthy]
  cases hp : HW3.linkOf blk with
  | none => simp [Js.jsTruthy]
  | some p =>
    cases hi : HW3.itemImageUrl blk with
    | none => simp [Js.jsTruthy]
    | some i =>
      by_cases hcond : (!(p == "") && !(i == "")) = true
      · simp [Js.jsTruthy, hcond]
      · have hcond2 : (!(p == "") && !(i == "")) = false := by simpa using hcond
        simp only [Js.jsTruthy, hcond2, Bool.false_eq_true, if_false]

/-- Counterexample to claim C10 as stated: `part_004` is also keyed by
`retailer::product_url`, but its `dedupe` keeps the FIRST-seen candidate
(`if (!m.has(key)) m.set(key, x)`), so the final occurrence's image URL does
not survive there. -/
theorem c10_counterexample :
    P4.dedupe [⟨"hm", "https://www2.hm.com/p", "https://img/a.jpg"⟩,
               ⟨"hm", "https://www2.hm.com/p", "https://img/b.jpg"⟩]
      = [⟨"hm", "https://www2.hm.com/p", "https://img/a.jpg"⟩] ∧
    P4.dedupe [⟨"hm", "https://www2.hm.com/p", "https://img/a.jpg"⟩,
               ⟨"hm", "https://www2.hm.com/p", "https://img/b.jpg"⟩]
      ≠ [⟨"hm", "https://www2.hm.com/p", "https://img/b.jpg"⟩] := by
  constructor
  · decide
  · decide

/-- Claim C10 as amended: in the `retailer::product_url`-keyed dedupes of
collect-hotwheels.mjs (RSS variant) and of part_001's second script, the
entry surviving for each key is exactly the LAST guard-passing occurrence
(later duplicates overwrite); in part_004's variant it is instead the FIRST
occurrence. -/
theorem c10_rp_dedupe_retention (l : List Item) (k : String) :
    ((HW3.dedupe l).filter (fun it => rpKey it == k)
        = ((l.filter (fun it => HW3.dedupeOk it && (rpKey it == k))).getLast?).toList) ∧
    ((P1B.dedupe l).filter (fun it => rpKey it == k)
        = ((l.filter (fun it => P1B.dedupeOk it && (rpKey it == k))).getLast?).toList) ∧
    ((P4.dedupe l).filter (fun it => rpKey it == k)
        = ((l.filter (fun it => P4.dedupeOk it && (rpKey it == k))).head?).toList) := by
  refine ⟨?_, ?_, ?_⟩
  · unfold HW3.dedupe
    rw [HW3.rssDedupeStep_eq_assocUpd]
    exact Fold.lastWins_filter HW3.dedupeOk l k
  · unfold P1B.dedupe
    rw [P1B.p1bDedupeStep_eq_assocUpd]
    exact Fold.lastWins_filter P1B.dedupeOk l k
  · unfold P4.dedupe
    rw [P4.p4DedupeStep_eq_assocUpd]
    exact Fold.firstWins_filter P4.dedupeOk l k

/-- Counterexample to claim C5 as stated: classification does not test the
matchers against the URL's hostname — `normalizeRetailer` substring-matches
the entire URL string.  For this URL no matcher occurs in the hostname
`example.com`, yet the query string makes it classify as `next`. -/
theorem c5_counterexample :
    HW1.normalizeRetailer "https://example.com/a?ref=next.co.uk" = some "next" ∧
    Js.hostOf "https://example.com/a?ref=next.co.uk" = some "example.com" ∧
    HW1.RETAILERS.all
      (fun r => r.matchers.all (fun m => !(Js.jsIncludes "example.com" m))) = true := by
  refine ⟨by decide, by decide, by decide⟩

/-- Claim C5 as amended: `normalizeRetailer` lower-cases the product URL and
substring-matches each rule's matchers against the WHOLE URL string, first
rule winning — so a URL containing `next.co.uk` classifies as `next`
provided no earlier rule (zara, hm) matches; a URL matching no rule is
dropped (`null`) in collect-hotwheels.mjs and becomes the fallback bucket
`"other"` in part_001; part_002's `retailerForUrl` instead matches the
hostname by exact-or-subdomain suffix. -/
theorem c5_domain_classification (u : String) :
    ((∀ m ∈ ["zara.com", "hm.com", "www2.hm.com"],
        Js.jsIncludes (Js.lowerS u) m = false) →
      Js.jsIncludes (Js.lowerS u) "next.co.uk" = true →
      HW1.normalizeRetailer u = some "next") ∧
    ((∀ r ∈ HW1.RETAILERS, ∀ m ∈ r.matchers, Js.jsIncludes (Js.lowerS u) m = false) →
      HW1.normalizeRetailer u = none) ∧
    ((∀ r ∈ P1.RETAILERS, ∀ m ∈ r.matchers, Js.jsIncludes (Js.lowerS u) m = false) →
      P1.normalizeRetailer u = "other") ∧
    ((P2.retailerForUrl "https://shop.next.co.uk/style/a1/b2").map P2.Rule2.key
        = some "next" ∧
      P2.retailerForUrl "https://mynext.co.uk/style/a1/b2" = none) := by
  refine ⟨?_, ?_, ?_, by decide, by decide⟩
  · intro hne hnext
    have h1 : Js.jsIncludes (Js.lowerS u) "zara.com" = false := hne _ (by simp)
    have h2 : Js.jsIncludes (Js.lowerS u) "hm.com" = false := hne _ (by simp)
    have h3 : Js.jsIncludes (Js.lowerS u) "www2.hm.com" = false := hne _ (by simp)
    dsimp only [HW1.normalizeRetailer]
    simp [HW1.RETAILERS, List.find?, h1, h2, h3, hnext]
  · intro hall
    have hf : HW1.RETAILERS.find?
        (fun r => r.matchers.any (fun m => Js.jsIncludes (Js.lowerS u) m)) = none := by
      rw [List.find?_eq_none]
      intro r hr hany
      simp only [List.any_eq_true] at hany
      obtain ⟨m, hm, hinc⟩ := hany
      rw [hall r hr m hm] at hinc
      exact Bool.false_ne_true hinc
    dsimp only [HW1.normalizeRetailer]
    rw [hf]
    rfl
  · intro hall
    have hf : P1.RETAILERS.find?
        (fun r => r.matchers.any (fun m => Js.jsIncludes (Js.lowerS u) m)) = none := by
      rw [List.find?_eq_none]
      intro r hr hany
      simp only [List.any_eq_true] at hany
      obtain ⟨m, hm, hinc⟩ := hany
      rw [hall r hr m hm] at hinc
      exact Bool.false_ne_true hinc
    dsimp only [P1.normalizeRetailer]
    rw [hf]

/-- Witness for the amended C5 at concrete URLs. -/
theorem c5_domain_classification_witness :
    HW1.normalizeRetailer "https://www.next.co.uk/style/a1/b2" = some "next" ∧
    HW1.normalizeRetailer "https://nowhere.test/x" = none ∧
    P1.normalizeRetailer "https://nowhere.test/x" = "other" :=
  ⟨(c5_domain_classification "https://www.next.co.uk/style/a1/b2").1
      (by decide) (by decide),
    (c5_domain_classification "https://nowhere.test/x").2.1 (by decide),
    (c5_domain_classification "https://nowhere.test/x").2.2.1 (by decide)⟩

/-- Claim C7: the relation between the deduplicated list and the output size
in the two cited variants (see `c7_counterexample` for why part_001 does not
always reach `MAX_ITEMS`): collect-hotwheels.mjs caps by `slice` (exactly
`MAX_ITEMS` whenever the deduped list is at least that long); part_001 sorts
by descending `imageScore` before capping and never exceeds `MAX_ITEMS`. -/
theorem c7_truncation (l : List Item) (dl : String → String → Option String) :
    ((HW1.finalOf l).length
        = min HW1.MAX_ITEMS (HW1.dedupeByStyleKeepBest (HW1.quickDedupe l [])).length) ∧
    ((P1.mainTail dl l).length ≤ P1.MAX_ITEMS) ∧
    (P1.sortByScoreDesc l).Pairwise
      (fun a b => P1.imageScore b.image_url ≤ P1.imageScore a.image_url) := by
  refine ⟨?_, ?_, P1.pairwise_sortByScoreDesc l⟩
  · show ((HW1.dedupeByStyleKeepBest (HW1.quickDedupe l [])).take HW1.MAX_ITEMS).length
      = min HW1.MAX_ITEMS (HW1.dedupeByStyleKeepBest (HW1.quickDedupe l [])).length
    rw [List.length_take]
  · have h := P1.buildGo_length_le dl
      (P1.applyPerRetailerCap (P1.sortByScoreDesc l)) 0
    unfold P1.mainTail P1.buildFinal
    omega

/-- The 201 distinct Pinterest candidates of the C7 counterexample. -/
def c7Input : List Item :=
  (List.range 201).map (fun n =>
    ⟨"pinterest", "https://pinterest.com/pin/a" ++ toString n, "img"⟩)

/-- Counterexample to claim C7 as stated: in part_001, a deduplicated list of
201 Pinterest candidates (more than `MAX_ITEMS = 200`) produces only 60
output items even when every download succeeds, because the per-retailer cap
(`PER_RETAILER_CAP.pinterest = 60`) prunes the list before the `MAX_ITEMS`
cut — the output does not contain exactly `MAX_ITEMS` items. -/
theorem c7_counterexample :
    P1.MAX_ITEMS < c7Input.length ∧
    (P1.mainTail (fun _ _ => some "images/hot-wheels/x.jpg") c7Input).length
      ≠ P1.MAX_ITEMS := by
  constructor
  · simp [c7Input, P1.MAX_ITEMS]
  · have hall : ∀ it ∈ P1.sortByScoreDesc c7Input, it.retailer = "pinterest" := by
      intro it hit
      have h2 := P1.mem_sortByScoreDesc it _ hit
      obtain ⟨n, hn, heq⟩ := List.mem_map.mp h2
      rw [← heq]
    have hlen : (P1.sortByScoreDesc c7Input).length = 201 := by
      rw [P1.length_sortByScoreDesc]
      simp [c7Input]
    have hcap := P1.capGo_length_uniform "pinterest" (P1.sortByScoreDesc c7Input) [] hall
    have hcaplen : (P1.applyPerRetailerCap (P1.sortByScoreDesc c7Input)).length = 60 := by
      unfold P1.applyPerRetailerCap
      rw [hcap, hlen]
      decide
    have hbuild := P1.buildGo_length_allSome "images/hot-wheels/x.jpg"
      (P1.applyPerRetailerCap (P1.sortByScoreDesc c7Input)) 0
    unfold P1.mainTail P1.buildFinal
    rw [hbuild, hcaplen]
    decide

/-- Counterexample to claim C8 as stated: in collect-hotwheels.mjs the Search
Client does not catch network failures — a rejected fetch propagates as an
exception instead of being reported as zero results, and `main().catch`
then aborts the run with exit status 1. -/
theorem c8_counterexample :
    HW1.collectPageItems (FetchOutcome.netError "ETIMEDOUT")
        = Except.error "ETIMEDOUT" ∧
    HW1.collectPageItems (FetchOutcome.netError "ETIMEDOUT")
        ≠ Except.ok [] ∧
    HW1.processExitCode
        ((HW1.collectPageItems (FetchOutcome.netError "ETIMEDOUT")).map (fun _ => ())) = 1 := by
  refine ⟨rfl, ?_, rfl⟩
  intro h
  exact Except.noConfusion h

/-- Claim C8 as amended: in part_002's fail-soft Search Client every failed
request — network error, timeout or non-2xx status — yields zero links for
that page and never throws; in collect-hotwheels.mjs, by contrast, a
rejected fetch propagates (see `c8_counterexample`). -/
theorem c8_failsoft :
    (∀ o : FetchOutcome, (P2.fetchText o).ok = false → P2.bingRssSearch o = []) ∧
    (∀ st t, ¬(200 ≤ st ∧ st < 300) →
      P2.bingRssSearch (FetchOutcome.success st t) = []) ∧
    (∀ m, P2.fetchText (FetchOutcome.netError m) = ⟨false, 0, ""⟩) ∧
    (∀ m, HW1.fetchTextE (FetchOutcome.netError m) = Except.error m) := by
  refine ⟨?_, ?_, fun m => rfl, fun m => rfl⟩
  · intro o hok
    unfold P2.bingRssSearch
    simp only [hok, Bool.false_eq_true, if_false]
  · intro st t hst
    unfold P2.bingRssSearch P2.fetchText
    have h : decide (200 ≤ st ∧ st < 300) = false := by
      simpa using hst
    simp [h]

/-- Witness for the amended C8 at concrete outcomes. -/
theorem c8_failsoft_witness :
    P2.bingRssSearch (FetchOutcome.netError "ECONNREFUSED") = [] ∧
    P2.bingRssSearch (FetchOutcome.success 503 "Service Unavailable") = [] :=
  ⟨c8_failsoft.1 (FetchOutcome.netError "ECONNREFUSED") (by decide),
    c8_failsoft.2.1 503 "Service Unavailable" (by decide)⟩

/-- Counterexample to claim C9 as stated: in the cited variants (part_002 and
part_003's second script) a filesystem failure thrown while writing the
output is caught by `main().catch`, which sets `process.exitCode = 0` — the
process terminates with a success status, not a failure status. -/
theorem c9_counterexample :
    P2.processExitCode (Except.error "EACCES: permission denied, open hot-wheels.json")
        = 0 ∧
    P3B.processExitCode (Except.error "EACCES: permission denied, open hot-wheels.json")
        = 0 := by
  exact ⟨rfl, rfl⟩

/-- Claim C9 as amended: in the fail-soft variants (part_002, part_003's
second script) EVERY top-level error — a write failure included — is caught
and the process exits 0, with part_002's handler also writing an empty `[]`
output; only the exit(1) variants (collect-hotwheels.mjs) abort with failure
status on an escaped error, and there a run that finds nothing is not an
error and still exits 0. -/
theorem c9_exit_codes (e : String) :
    P2.processExitCode (Except.error e) = 0 ∧
    P2.catchWritesEmpty (Except.error e) = true ∧
    P2.processExitCode (Except.ok ()) = 0 ∧
    P3B.processExitCode (Except.error e) = 0 ∧
    HW1.processExitCode (Except.error e) = 1 ∧
    HW1.processExitCode (Except.ok ()) = 0 := by
  exact ⟨rfl, rfl, rfl, rfl, rfl, rfl⟩
